import Mathlib

/-!
# Verification of `cardano_node_tests/utils/logfiles.py`

A shallow embedding of the log-artifact error-surveillance engine of
`cardano_node_tests/utils/logfiles.py`, together with theorems settling the
claims about its behaviour.

Modelling conventions:
* A state directory is a list of physical files (`PFile`), each with a name,
  text content, and a modification time (`Nat`).  Real filesystems have
  distinct names within a directory; theorems that need this state it as a
  `Nodup` hypothesis.
* File content is modelled as a `String`; byte offsets are character offsets
  (the contents involved are ASCII).
* Python `re` patterns are used by the source only as alternations of
  literal tokens (`ERRORS_RE = ":error:|failed|failure"`, and the joined
  ignore patterns, which are searched with `re.search`).  The embedding
  models a pattern as a `|`-separated list of literals, and `search` as
  "some alternand is a substring of the line".  The empty pattern matches
  every line, exactly as in Python.
* `fnmatch` globs are modelled for the `*` and `?` fragment actually used.
* Python's `sorted(..., reverse=True)` is a stable descending sort; it is
  modelled by a stable insertion sort.
-/

/-- Characterwise lowercase for the ASCII fragment, as used by
`re.IGNORECASE` on the ASCII log content. -/
def lowerChar (c : Char) : Char :=
  if 65 ≤ c.toNat ∧ c.toNat ≤ 90 then Char.ofNat (c.toNat + 32) else c

/-- Lowercase a character list. -/
def lowerL (cs : List Char) : List Char := cs.map lowerChar

/-- Decide whether `pat` is a leading segment of `cs`. -/
def isPreL : List Char → List Char → Bool
  | [], _ => true
  | _ :: _, [] => false
  | a :: as, b :: bs => a == b && isPreL as bs

/-- Substring test: some suffix of `hay` starts with `needle`
(the semantics of `re.search` for a single literal token). -/
def containsL (hay needle : List Char) : Bool :=
  isPreL needle hay ||
    match hay with
    | [] => false
    | _ :: t => containsL t needle

/-- Split on a single-character separator, Python `str.split(sep)`:
`splitOnCh sep "" = [""]`, separators at the ends produce empty fields. -/
def splitOnCh (sep : Char) : List Char → List (List Char)
  | [] => [[]]
  | c :: rest =>
    if c == sep then [] :: splitOnCh sep rest
    else
      match splitOnCh sep rest with
      | [] => [[c]]
      | h :: t => (c :: h) :: t

/-- Split on the two-character separator `";;"`, Python `str.split(";;")`
(leftmost-first, non-overlapping). -/
def splitSemi : List Char → List (List Char)
  | [] => [[]]
  | [c] => [[c]]
  | c1 :: c2 :: rest =>
    if c1 == ';' && c2 == ';' then [] :: splitSemi rest
    else
      match splitSemi (c2 :: rest) with
      | [] => [c1 :: c2 :: rest]
      | h :: t => (c1 :: h) :: t

/-- Lines yielded by iterating over an open Python text file: split on
newlines; a trailing newline does not produce a final empty line.  (Python
keeps the `"\n"` terminator on each yielded line; the embedding drops it,
which is equivalent for matching the newline-free tokens used here.) -/
def pyLinesL (cs : List Char) : List (List Char) :=
  let parts := splitOnCh '\n' cs
  if parts.getLast? = some [] then parts.dropLast else parts

/-- `fnmatch`-style glob matching for the `*`/`?` fragment used by the
source (`*` matches any run of characters, `?` one character, everything
else is literal), with explicit fuel (any amount at least
`pattern length + name length` is enough). -/
def globMatchAux : Nat → List Char → List Char → Bool
  | 0, _, _ => false
  | _ + 1, [], [] => true
  | _ + 1, [], _ :: _ => false
  | fuel + 1, '*' :: ps, [] => globMatchAux fuel ps []
  | fuel + 1, '*' :: ps, c :: cs =>
    globMatchAux fuel ps (c :: cs) || globMatchAux fuel ('*' :: ps) cs
  | _ + 1, '?' :: _, [] => false
  | fuel + 1, '?' :: ps, _ :: cs => globMatchAux fuel ps cs
  | _ + 1, _ :: _, [] => false
  | fuel + 1, p :: ps, c :: cs => p == c && globMatchAux fuel ps cs

/-- Glob matching for a pattern against a file name. -/
def globMatchL (ps cs : List Char) : Bool :=
  globMatchAux (ps.length + cs.length + 1) ps cs

/-- Glob matching on strings. -/
def globMatch (pat name : String) : Bool := globMatchL pat.data name.data

/-- Join a list of patterns with `"|"`, Python `"|".join(...)`. -/
def joinPipeL : List (List Char) → List Char
  | [] => []
  | [x] => x
  | x :: xs => x ++ '|' :: joinPipeL xs

/-- `re.search` of an alternation-of-literals pattern against a line:
split the pattern on `|` and test each alternand for substring containment.
The empty pattern matches everything, as in Python. -/
def reSearchL (pat line : List Char) : Bool :=
  (splitOnCh '|' pat).any fun alt => containsL line alt

/-- String version of `reSearchL`. -/
def reSearch (pat line : String) : Bool := reSearchL pat.data line.data

/-- `ERRORS_RE = re.compile(":error:|failed|failure", re.IGNORECASE)`
applied with `.search` to a line: case-insensitive containment of one of
the three literal tokens. -/
def errorsRe (line : String) : Bool :=
  let low := lowerL line.data
  containsL low ":error:".data || containsL low "failed".data ||
    containsL low "failure".data

/-- `ROTATED_RE = re.compile(r".+\.[0-9]+")` used with `.match` (anchored
at the start): the name has at least one character, then a dot, then a
digit somewhere after position 0.  `hasDotDigitL` scans for a dot
immediately followed by a digit. -/
def hasDotDigitL : List Char → Bool
  | '.' :: d :: rest => (48 ≤ d.toNat && d.toNat ≤ 57) || hasDotDigitL (d :: rest)
  | _ :: rest => hasDotDigitL rest
  | [] => false

/-- `ROTATED_RE.match(name)` is a match iff a `.`+digit pair occurs with at
least one character before the dot. -/
def rotatedMatch (name : String) : Bool :=
  match name.data with
  | [] => false
  | _ :: rest => hasDotDigitL rest

/-- Python truthiness of a string: nonempty. -/
def pyTruthy (s : String) : Bool := !s.data.isEmpty

/-- `str.endswith` on the character level. -/
def endsWithL (name suffix : List Char) : Bool :=
  isPreL suffix.reverse name.reverse

/-- Decimal digit character for `n % 10`. -/
def digitChar (n : Nat) : Char :=
  match n % 10 with
  | 0 => '0' | 1 => '1' | 2 => '2' | 3 => '3' | 4 => '4'
  | 5 => '5' | 6 => '6' | 7 => '7' | 8 => '8' | _ => '9'

/-- Decimal digits of `n`, most significant first; `fuel ≥ n` suffices. -/
def natCharsAux : Nat → Nat → List Char
  | 0, n => [digitChar n]
  | fuel + 1, n => if n < 10 then [digitChar n] else natCharsAux fuel (n / 10) ++ [digitChar n]

/-- Python `str(n)` for a natural number. -/
def natRepr (n : Nat) : String := ⟨natCharsAux n n⟩

/-- Parse a decimal numeral (used only on numerals the engine itself
wrote). -/
def parseNatL : List Char → Nat → Nat
  | [], acc => acc
  | c :: cs, acc => parseNatL cs (acc * 10 + (c.toNat - 48))

/-- Whitespace trim of Python `str.strip()` for the fragment used
(offset files contain a bare numeral). -/
def stripL (cs : List Char) : List Char :=
  ((cs.dropWhile (·.isWhitespace)).reverse.dropWhile (·.isWhitespace)).reverse

/-- A physical file in the cluster state directory: name, text content,
and modification time. -/
structure PFile where
  name : String
  content : String
  mtime : Nat
deriving DecidableEq, Repr

/-- A state directory: the list of its physical files, in directory
enumeration order. -/
abbrev FS := List PFile

/-- Look a file up by name. -/
def lookupFile (fs : FS) (name : String) : Option PFile :=
  fs.find? fun f => f.name == name

/-- `open(name, "w")`: truncate-or-create with the given content, stamping
the modification time. -/
def writeFile (fs : FS) (name content : String) (now : Nat) : FS :=
  if fs.any (fun f => f.name == name) then
    fs.map fun f => if f.name == name then ⟨name, content, now⟩ else f
  else fs ++ [⟨name, content, now⟩]

/-- `open(name, "a")`: append-or-create, stamping the modification time. -/
def appendFile (fs : FS) (name add : String) (now : Nat) : FS :=
  if fs.any (fun f => f.name == name) then
    fs.map fun f =>
      if f.name == name then ⟨name, f.content ++ add, now⟩ else f
  else fs ++ [⟨name, add, now⟩]

/-- Content of a file, `""` if absent (segment files are looked up after
having been globbed). -/
def contentOf (fs : FS) (name : String) : String :=
  ((lookupFile fs name).map PFile.content).getD ""

/-- `RotableLog` from the source: one physical incarnation of a log file,
with the offset at which reading resumes and its modification time. -/
structure RotableLog where
  logfile : String
  seek : Nat
  timestamp : Nat
deriving DecidableEq, Repr

/-- Stable insertion placing `r` before the first strictly older record
(Python `sorted(key=timestamp, reverse=True)` keeps equal keys in input
order). -/
def insertDesc (r : RotableLog) : List RotableLog → List RotableLog
  | [] => [r]
  | x :: xs =>
    if x.timestamp ≤ r.timestamp then r :: x :: xs else x :: insertDesc r xs

/-- Stable descending sort by modification time. -/
def sortDesc : List RotableLog → List RotableLog
  | [] => []
  | x :: xs => insertDesc x (sortDesc xs)

/-- `get_rotated_logs(logfile, seek, timestamp)` from the source, verbatim
including its actual (not intended) behaviour: glob `f"{name}*"`, keep
files modified strictly after `timestamp`, sort by modification time with
`reverse=True` (newest first), then assign `seek` to element `[0]` of the
sorted list and return it unreversed. -/
def get_rotated_logs (fs : FS) (logname : String) (seek timestamp : Nat) :
    List RotableLog :=
  let logfiles := fs.filter fun f => globMatch (logname ++ "*") f.name
  let records0 : List RotableLog :=
    logfiles.map fun f => ⟨f.name, 0, f.mtime⟩
  let records1 := records0.filter fun r => timestamp < r.timestamp
  let logfile_records := sortDesc records1
  match logfile_records with
  | [] => []
  | oldest_record :: rest => { oldest_record with seek := seek } :: rest

/-- Name of the rules file for a rule-group id:
`f"{ERRORS_RULES_FILE_NAME}_{rules_file_id}"` inside the state dir. -/
def rulesFileName (rules_file_id : String) : String :=
  ".errors_rules_" ++ rules_file_id

/-- Name of the bookmark sidecar file of a log file:
`f".{logfile.name}.offset"`. -/
def offsetFileName (logname : String) : String :=
  "." ++ logname ++ ".offset"

/-- `add_ignore_rule(files_glob, regex, rules_file_id)`: append the line
`f"{files_glob};;{regex}\n"` to the group's rules file. -/
def add_ignore_rule (fs : FS) (files_glob regex rules_file_id : String)
    (now : Nat) : FS :=
  appendFile fs (rulesFileName rules_file_id)
    (files_glob ++ ";;" ++ regex ++ "\n") now

/-- `Path.unlink()`: remove the file, raising `FileNotFoundError` when it
does not exist. -/
def unlink (fs : FS) (name : String) : Except String FS :=
  if fs.any (fun f => f.name == name) then
    .ok (fs.filter fun f => !(f.name == name))
  else .error "FileNotFoundError"

/-- `del_rules_file(rules_file_id)`: unlink the group's rules file,
swallowing `FileNotFoundError`. -/
def del_rules_file (fs : FS) (rules_file_id : String) : Except String FS :=
  match unlink fs (rulesFileName rules_file_id) with
  | .ok fs' => .ok fs'
  | .error e => if e == "FileNotFoundError" then .ok fs else .error e

/-- Strip trailing newlines, Python `str.rstrip("\n")`. -/
def rstripNlL (cs : List Char) : List Char :=
  (cs.reverse.dropWhile (· == '\n')).reverse

/-- Parse the lines of one rules file: skip lines without `";;"`; split
the rest on `";;"` and unpack into exactly two fields, raising
`ValueError` (as Python tuple unpacking does) when the split yields more
than two. -/
def parseRuleLines : List (List Char) → Except String (List (String × String))
  | [] => .ok []
  | l :: ls =>
    if containsL l ";;".data then
      match splitSemi l with
      | [g, r] =>
        (parseRuleLines ls).map fun rest => (⟨g⟩, (⟨rstripNlL r⟩ : String)) :: rest
      | _ => .error "ValueError"
    else parseRuleLines ls

/-- Collect the parsed rules of every rules file, in file order; a parse
error in any file propagates (Python's exception). -/
def getIgnoreRulesFiles : List PFile → Except String (List (String × String))
  | [] => .ok []
  | f :: rest =>
    match parseRuleLines (pyLinesL f.content.data) with
    | .error e => .error e
    | .ok rs =>
      match getIgnoreRulesFiles rest with
      | .error e => .error e
      | .ok more => .ok (rs ++ more)

/-- `get_ignore_rules()`: read every file matching
`f"{ERRORS_RULES_FILE_NAME}_*"` in the state dir and collect `(glob, regex)`
pairs. -/
def get_ignore_rules (fs : FS) : Except String (List (String × String)) :=
  getIgnoreRulesFiles
    (fs.filter fun f => isPreL ".errors_rules_".data f.name.data)

/-- `get_ignore_regex(ignore_rules, regexes, logfile)`: join the baseline
regexes with the regex of every rule whose glob matches the log file name.
(Python builds a `set`, whose iteration order is unspecified; the
embedding keeps list order — alternation matching is order- and
duplicate-insensitive, see `reSearchL_joinPipeL`.) -/
def get_ignore_regex (ignore_rules : List (String × String))
    (regexes : List String) (logname : String) : String :=
  ⟨joinPipeL
    (regexes.map String.data ++
      ((ignore_rules.filter fun gr => globMatch gr.1 logname).map
        fun gr => gr.2.data))⟩

/-- The per-line reporting test of `search_cluster_artifacts`:
`ERRORS_RE.search(line) and not (errors_ignored and
errors_ignored_re.search(line))`. -/
def reportedLine (errors_ignored line : String) : Bool :=
  errorsRe line && !(pyTruthy errors_ignored && reSearch errors_ignored line)

/-- `_get_seek`: first line of the offset sidecar file, stripped and read
as an integer. -/
def getSeekOf (content : String) : Nat :=
  parseNatL (stripL ((splitOnCh '\n' content.data).headD [])) 0

/-- `helpers.get_eof_offset(p)`.  Modelled from the spec: the `helpers`
module is not part of the provided sources; the spec describes the value as
"the current end-of-file" of the file, persisted to the sidecar as "a
single integer text line (the byte offset)". -/
def get_eof_offset (fs : FS) (name : String) : Nat :=
  (contentOf fs name).data.length

/-- Candidate root files of the sweep: `state_dir.glob("*.std*")` minus
offset sidecars and rotated copies. -/
def isCandidate (name : String) : Bool :=
  globMatch "*.std*" name && !(endsWithL name.data ".offset".data) &&
    !(rotatedMatch name)

/-- The lines the sweep scans for one log file: for every resolved
segment, the lines of its content from offset `seek` on.  The source seeks
every segment to the same bookmark value `seek` (`infile.seek(seek)`), not
to the segment's own `seek` field. -/
def scannedLines (fs : FS) (logname : String) (seek timestamp : Nat) :
    List String :=
  (get_rotated_logs fs logname seek timestamp).foldl
    (fun acc r =>
      acc ++ (pyLinesL ((contentOf fs r.logfile).data.drop seek)).map
        fun l => (⟨l⟩ : String))
    []

/-- The persisted bookmark offset of a log file: `_get_seek` of the
offset sidecar, defaulting to 0 when the sidecar does not exist. -/
def bookmarkSeek (fs : FS) (logname : String) : Nat :=
  match lookupFile fs (offsetFileName logname) with
  | some f => getSeekOf f.content
  | none => 0

/-- The timestamp of the last search: the offset sidecar's modification
time, defaulting to 0 (epoch) when the sidecar does not exist. -/
def bookmarkTimestamp (fs : FS) (logname : String) : Nat :=
  match lookupFile fs (offsetFileName logname) with
  | some f => f.mtime
  | none => 0

/-- The body of the sweep loop for one candidate log file: read the
bookmark (offset sidecar content and modification time, defaulting to
`(0, 0)`), form the ignore pattern, write a fresh bookmark at end-of-file,
then scan the resolved chain and keep the reported lines. -/
def sweepFile (ignore_rules : List (String × String)) (regexes : List String)
    (now : Nat) (fs : FS) (logname : String) :
    List (String × String) × FS :=
  let errors_ignored := get_ignore_regex ignore_rules regexes logname
  let fs' := writeFile fs (offsetFileName logname)
    (natRepr (get_eof_offset fs logname)) now
  (((scannedLines fs' logname (bookmarkSeek fs logname)
        (bookmarkTimestamp fs logname)).filter
      fun l => reportedLine errors_ignored l).map fun l => (logname, l),
    fs')

/-- One iteration of the sweep loop: run the per-file body on the current
state and append its findings. -/
def sweepStep (ignore_rules : List (String × String))
    (regexes : List String) (now : Nat)
    (acc : List (String × String) × FS) (logname : String) :
    List (String × String) × FS :=
  (acc.1 ++ (sweepFile ignore_rules regexes now acc.2 logname).1,
    (sweepFile ignore_rules regexes now acc.2 logname).2)

/-- `search_cluster_artifacts()` with the baseline ignore list as a
parameter (the source closes over the module constant `ERRORS_IGNORED`;
see `search_cluster_artifacts`): read the rule store once (exceptions
propagating), then fold the per-file sweep over every candidate file. -/
def sweepWith (regexes : List String) (fs : FS) (now : Nat) :
    Except String (List (String × String) × FS) :=
  match get_ignore_rules fs with
  | .error e => .error e
  | .ok ignore_rules =>
    .ok (((fs.map PFile.name).filter isCandidate).foldl
      (sweepStep ignore_rules regexes now) ([], fs))

/-- `ERRORS_IGNORED` from the source (the era-conditional Alonzo entry is
environment configuration and not part of the base list). -/
def ERRORS_IGNORED : List String :=
  [ "Connection Attempt Exception"
  , "EKGServerStartupError"
  , "ExceededTimeLimit"
  , "Failed to start all required subscriptions"
  , "TraceDidntAdoptBlock"
  , "failedScripts"
  , "closed when reading data, waiting on next header"
  , "MuxIOException writev: resource vanished"
  , "MuxIOException Network\\.Socket\\.recvBuf: resource vanished"
  , "db-sync-node:.* AsyncCancelled"
  , "db-sync-node:.* validateEpochRewardsBefore"
  , "db-sync-node:.*could not serialize access"
  ]

/-- `search_cluster_artifacts()` from the source: the sweep with the
module-level baseline ignore list. -/
def search_cluster_artifacts (fs : FS) (now : Nat) :
    Except String (List (String × String) × FS) :=
  sweepWith ERRORS_IGNORED fs now

/-- Entry phase of `expect_errors`: register every pair as an ignore rule
in the group's rules file. -/
def addIgnoreRules (fs : FS) (pairs : List (String × String))
    (rules_file_id : String) (now : Nat) : FS :=
  pairs.foldl (fun a p => add_ignore_rule a p.1 p.2 rules_file_id now) fs

/-- Entry phase of `expect_errors`: expand every glob over the state dir,
flatten, and record each file's end-of-file offset, keyed by name (a
Python dict: duplicate names collapse to one entry). -/
def expectSnapshot (fs : FS) (globs : List String) : List (String × Nat) :=
  let expanded :=
    globs.foldl (fun a g => a ++ fs.filter fun f => globMatch g f.name) []
  expanded.foldl
    (fun a f =>
      if a.any (fun e => e.1 == f.name) then a
      else a ++ [(f.name, get_eof_offset fs f.name)])
    []

/-- Exit phase of `expect_errors` for one `(files_glob, regex)` pair:
filter the snapshotted names by the glob; for each non-rotated name,
resolve the chain with the snapshotted offset and entry timestamp and look
for the regex from that offset in every segment (the source seeks every
segment to the same snapshot offset); raise `AssertionError` when no
segment matches. -/
def checkPair (fs : FS) (snapshot : List (String × Nat)) (timestamp : Nat)
    (files_glob regex : String) : Except String Unit :=
  let matching :=
    (snapshot.map Prod.fst).filter fun n => globMatch files_glob n
  matching.foldlM
    (fun _ logfile =>
      if rotatedMatch logfile then .ok ()
      else
        let seek := (snapshot.lookup logfile).getD 0
        let found :=
          (get_rotated_logs fs logfile seek timestamp).any fun rec =>
            (pyLinesL ((contentOf fs rec.logfile).data.drop seek)).any
              fun l => reSearch regex ⟨l⟩
        if found then .ok ()
        else
          .error ("No line matching " ++ regex ++ " found in " ++ logfile))
    ()

/-- Exit phase of `expect_errors`: run `checkPair` for every pair, raising
at the first failed expectation. -/
def expectErrorsExit (fs : FS) (snapshot : List (String × Nat))
    (timestamp : Nat) (pairs : List (String × String)) : Except String Unit :=
  pairs.foldlM (fun _ p => checkPair fs snapshot timestamp p.1 p.2) ()

/-- Events of the instrumented filesystem/lock trace: one event per
filesystem touch of the shared resources, plus lock acquisition and
release marking the extent of each `with FileLockIfXdist(...)` block.
`FileLockIfXdist` itself is modelled from the spec ("a single named
advisory file lock ... per cluster instance"); its module is not part of
the provided sources. -/
inductive FsEvent
  | lockAcquire
  | lockRelease
  | ruleRead
  | ruleWrite
  | bookmarkRead
  | bookmarkWrite
  | logRead
deriving DecidableEq, Repr

/-- Trace of `add_ignore_rule`: the rules-file append happens inside the
`with FileLockIfXdist(...)` block. -/
def addIgnoreRuleTrace : List FsEvent :=
  [.lockAcquire, .ruleWrite, .lockRelease]

/-- Trace of `del_rules_file`: the unlink happens inside the lock
block. -/
def delRulesFileTrace : List FsEvent :=
  [.lockAcquire, .ruleWrite, .lockRelease]

/-- Trace of `get_ignore_rules`: every rules file is read inside the lock
block. -/
def getIgnoreRulesTrace (numRuleFiles : Nat) : List FsEvent :=
  .lockAcquire :: (List.replicate numRuleFiles .ruleRead ++ [.lockRelease])

/-- Trace of the per-candidate body of `search_cluster_artifacts`: read
the offset sidecar when it exists (`_get_seek` and `getmtime`), read the
live file's end-of-file, write the new offset sidecar, then read the
resolved segments.  The source wraps none of this in a lock. -/
def sweepFileTrace (hasOffset : Bool) (numSegments : Nat) : List FsEvent :=
  (if hasOffset then [.bookmarkRead] else []) ++
    .logRead :: .bookmarkWrite :: List.replicate numSegments .logRead

/-- Trace of `search_cluster_artifacts`: one locked `get_ignore_rules`
call, then the unlocked per-file bodies. -/
def searchClusterArtifactsTrace (numRuleFiles : Nat)
    (files : List (Bool × Nat)) : List FsEvent :=
  getIgnoreRulesTrace numRuleFiles ++
    (files.map fun f => sweepFileTrace f.1 f.2).flatten

/-- Rule-store events. -/
def isRuleStoreOp : FsEvent → Bool
  | .ruleRead => true
  | .ruleWrite => true
  | _ => false

/-- Bookmark sidecar events. -/
def isBookmarkOp : FsEvent → Bool
  | .bookmarkRead => true
  | .bookmarkWrite => true
  | _ => false

/-- Check that every event selected by `sel` happens while the advisory
lock is held (`d` counts currently held acquisitions). -/
def opsUnderLock (sel : FsEvent → Bool) : Nat → List FsEvent → Bool
  | _, [] => true
  | d, e :: tr =>
    match e with
    | .lockAcquire => opsUnderLock sel (d + 1) tr
    | .lockRelease => opsUnderLock sel (d - 1) tr
    | _ => (!sel e || decide (0 < d)) && opsUnderLock sel d tr

/-- Check that every event selected by `sel` happens with the advisory
lock not held. -/
def opsOutsideLock (sel : FsEvent → Bool) : Nat → List FsEvent → Bool
  | _, [] => true
  | d, e :: tr =>
    match e with
    | .lockAcquire => opsOutsideLock sel (d + 1) tr
    | .lockRelease => opsOutsideLock sel (d - 1) tr
    | _ => (!sel e || decide (d = 0)) && opsOutsideLock sel d tr

/-! ## Theorems settling the claims -/

/-- C1: the claim states that `get_rotated_logs` returns the kept files
ordered ascending by modification time with the saved offset on the
*oldest* segment.  The code instead sorts descending (`reverse=True`),
assigns the saved offset to element `[0]` — the *newest* file — and
returns the list newest-first, contradicting its own docstring and
comments ("sorted ... from oldest to newest", "the seek value belongs to
the log file with modification time furthest in the past").  At a rotated
pair (live file mtime 2, rotated copy mtime 1, bookmark offset 7) the code
yields the newest-first chain with the offset on the live file. -/
theorem get_rotated_logs_puts_seek_on_newest :
    get_rotated_logs [⟨"node.stdout", "x", 2⟩, ⟨"node.stdout.1", "y", 1⟩]
      "node.stdout" 7 0 =
      [⟨"node.stdout", 7, 2⟩, ⟨"node.stdout.1", 0, 1⟩] ∧
    get_rotated_logs [⟨"node.stdout", "x", 2⟩, ⟨"node.stdout.1", "y", 1⟩]
      "node.stdout" 7 0 ≠
      [⟨"node.stdout.1", 7, 1⟩, ⟨"node.stdout", 0, 2⟩] := by
  constructor
  · rfl
  · decide

/-- C2: the claim states that both readers read each segment from that
segment's own resume offset (oldest from the bookmark, all others from 0).
The code instead calls `infile.seek(seek)` with the *bookmark* offset for
every segment and never consults `logfile_rec.seek`.  With a fully-read
rotated copy (14 bytes, bookmark 14) and a fresh 12-byte live file holding
`":error: new\n"`, the sweep scans nothing and returns `[]`, although the
live file's line passes the sweep's reporting test and reading the live
segment from offset 0 (as the claim requires) would report it.  The same
`infile.seek(seek)` pattern appears in `expect_errors`, where a regex
present only in the short live file is not found. -/
theorem sweep_seeks_bookmark_offset_in_every_segment :
    (search_cluster_artifacts
      [⟨"node.stdout", ":error: new\n", 6⟩,
       ⟨"node.stdout.1", "AAAA:error: x\n", 5⟩,
       ⟨".node.stdout.offset", "14", 1⟩] 10).map Prod.fst = .ok [] ∧
    reportedLine (get_ignore_regex [] ERRORS_IGNORED "node.stdout")
      ":error: new" = true ∧
    checkPair
      [⟨"node.stdout", "MyError here\n", 6⟩,
       ⟨"node.stdout.1", "AAAAAAAAAAAAA\n", 5⟩]
      [("node.stdout", 14)] 3 "node.stdout" "MyError" =
      .error "No line matching MyError found in node.stdout" := by
  refine ⟨?_, ?_, ?_⟩ <;> rfl

/-- C3 counterexample: the claim's scenario puts lines
`["ok", "ERROR: disk full"]` into `node.stdout` and expects the sweep to
return `[("node.stdout", "ERROR: disk full")]`.  The generic error
signature is `":error:|failed|failure"` (case-insensitive), which does not
match `"ERROR: disk full"` (no colon before `ERROR`), so the sweep returns
`[]`. -/
theorem sweep_misses_plain_error_prefix_line :
    (search_cluster_artifacts [⟨"node.stdout", "ok\nERROR: disk full", 5⟩]
      10).map Prod.fst = .ok [] ∧
    errorsRe "ERROR: disk full" = false := by
  constructor <;> rfl

/-- C3 amended: with the offending line changed to one that matches the
generic error signature (`"db:error: disk full"` contains `:error:`), the
scenario behaves as claimed: the first sweep reports exactly that line;
after `add_ignore_rule("node.stdout", "disk full", "g1")` and a freshly
appended identical line, a second sweep returns `[]`. -/
theorem sweep_end_to_end_scenario_with_matching_line :
    (search_cluster_artifacts [⟨"node.stdout", "ok\ndb:error: disk full", 5⟩]
      10).map Prod.fst = .ok [("node.stdout", "db:error: disk full")] ∧
    (do
      let r1 ← search_cluster_artifacts
        [⟨"node.stdout", "ok\ndb:error: disk full", 5⟩] 10
      let fsA := add_ignore_rule r1.2 "node.stdout" "disk full" "g1" 11
      let fsB := appendFile fsA "node.stdout" "\ndb:error: disk full" 12
      search_cluster_artifacts fsB 13 : Except String _).map Prod.fst =
      .ok [] := by
  constructor <;> rfl

/-- C6 counterexample: for `regex = "a;;b"` the stored line
`"g;;a;;b"` splits into three fields, and the tuple unpacking in
`get_ignore_rules` raises `ValueError` — so after this `add_ignore_rule`,
`get_ignore_rules` does raise, and the claim fails as stated. -/
theorem get_ignore_rules_raises_on_separator_in_regex :
    get_ignore_rules (add_ignore_rule [] "g" "a;;b" "id" 1) =
      .error "ValueError" := by
  rfl

/-- Filtering away every record named `n` leaves nothing named `n`. -/
theorem any_filter_ne_name (fs : FS) (n : String) :
    (fs.filter fun f => !(f.name == n)).any (fun f => f.name == n) = false := by
  induction fs with
  | nil => rfl
  | cons f t ih =>
    by_cases h : f.name == n <;> simp [List.filter_cons, h, ih]

/-- C8: `del_rules_file` never raises: a missing rules file is swallowed
(`FileNotFoundError` is caught), and deleting twice succeeds on both
calls, the second call being a no-op. -/
theorem del_rules_file_twice_no_error (fs : FS) (rules_file_id : String) :
    ∃ fs', del_rules_file fs rules_file_id = .ok fs' ∧
      del_rules_file fs' rules_file_id = .ok fs' := by
  unfold del_rules_file unlink
  by_cases h : fs.any (fun f => f.name == rulesFileName rules_file_id)
  · refine ⟨fs.filter fun f => !(f.name == rulesFileName rules_file_id),
      ?_, ?_⟩
    · simp [h]
    · simp [any_filter_ne_name]
  · exact ⟨fs, by simp [h], by simp [h]⟩

/-- C7: with an empty baseline list and no stored rule whose glob matches
the file name, `get_ignore_regex` returns the empty string, and the
sweep's per-line reporting test (`reportedLine`, the filter used by
`sweepFile`) degenerates to the generic error signature alone: nothing is
suppressed — in particular the empty union does not behave as a
match-everything regex, because the sweep guards the search with the
pattern's truthiness. -/
theorem empty_union_suppresses_nothing
    (ignore_rules : List (String × String)) (logname : String)
    (hno : ∀ gr ∈ ignore_rules, globMatch gr.1 logname = false) :
    get_ignore_regex ignore_rules [] logname = "" ∧
    ∀ line, reportedLine (get_ignore_regex ignore_rules [] logname) line =
      errorsRe line := by
  have hfil : (ignore_rules.filter fun gr => globMatch gr.1 logname) = [] := by
    rw [List.filter_eq_nil_iff]
    intro gr hgr
    simp [hno gr hgr]
  have hreg : get_ignore_regex ignore_rules [] logname = "" := by
    unfold get_ignore_regex
    rw [hfil]
    rfl
  refine ⟨hreg, fun line => ?_⟩
  rw [hreg]
  unfold reportedLine pyTruthy
  simp

/-- Witness for C7 at a concrete store: one rule whose glob does not match
the file. -/
theorem empty_union_suppresses_nothing_witness :
    get_ignore_regex [("a.txt", "boom")] [] "node.stdout" = "" ∧
    reportedLine (get_ignore_regex [("a.txt", "boom")] [] "node.stdout")
      "x failed x" = errorsRe "x failed x" := by
  have h := empty_union_suppresses_nothing [("a.txt", "boom")] "node.stdout"
    (by decide)
  exact ⟨h.1, h.2 "x failed x"⟩

/-- Every name recorded by the entry snapshot of `expect_errors` is the
name of a file present in the state directory at entry. -/
theorem expectSnapshot_names (fs : FS) (globs : List String) :
    ∀ e ∈ expectSnapshot fs globs, ∃ f, f ∈ fs ∧ e.1 = f.name := by
  have hexp : ∀ (gs : List String) (acc : List PFile),
      ∀ x ∈ gs.foldl (fun a g => a ++ fs.filter fun f => globMatch g f.name)
        acc, x ∈ acc ∨ x ∈ fs := by
    intro gs
    induction gs with
    | nil => intro acc x hx; exact Or.inl hx
    | cons g t ih =>
      intro acc x hx
      rcases ih _ x hx with h | h
      · rcases List.mem_append.1 h with h | h
        · exact Or.inl h
        · exact Or.inr (List.mem_filter.1 h).1
      · exact Or.inr h
  have hsnap : ∀ (l : List PFile) (acc : List (String × Nat)),
      (∀ e ∈ acc, ∃ f, f ∈ fs ∧ e.1 = f.name) → (∀ f ∈ l, f ∈ fs) →
      ∀ e ∈ l.foldl
        (fun a f =>
          if a.any (fun e => e.1 == f.name) then a
          else a ++ [(f.name, get_eof_offset fs f.name)]) acc,
        ∃ f, f ∈ fs ∧ e.1 = f.name := by
    intro l
    induction l with
    | nil => intro acc hacc _ e he; exact hacc e he
    | cons f t ih =>
      intro acc hacc hl e he
      refine ih _ ?_ (fun g hg => hl g (List.mem_cons_of_mem f hg)) e he
      intro e' he'
      by_cases h : acc.any (fun e => e.1 == f.name)
      · have he'' : e' ∈ acc := by simpa [h] using he'
        exact hacc e' he''
      · have he'' : e' ∈ acc ++ [(f.name, get_eof_offset fs f.name)] := by
          simpa [h] using he'
        rcases List.mem_append.1 he'' with h' | h'
        · exact hacc e' h'
        · refine ⟨f, hl f (List.mem_cons_self f t), ?_⟩
          rcases List.mem_singleton.1 h' with rfl
          rfl
  intro e he
  unfold expectSnapshot at he
  exact hsnap _ [] (by intro e' he'; cases he')
    (fun f hf => (hexp globs [] f hf).resolve_left (by intro h; cases h)) e he

/-- C10: if at scope entry no file in the state directory matches a pair's
glob, the exit-phase check for that pair succeeds vacuously — the glob is
re-applied only to the names snapshotted at entry, so nothing is searched
and no `AssertionError` is raised, regardless of how the directory looks
at exit. -/
theorem checkPair_vacuous_when_no_entry_match
    (fsEntry fsExit : FS) (globs : List String) (timestamp : Nat)
    (files_glob regex : String)
    (hg : ∀ f ∈ fsEntry, globMatch files_glob f.name = false) :
    checkPair fsExit (expectSnapshot fsEntry globs) timestamp files_glob
      regex = .ok () := by
  have hempty :
      ((expectSnapshot fsEntry globs).map Prod.fst).filter
        (fun n => globMatch files_glob n) = [] := by
    rw [List.filter_eq_nil_iff]
    intro n hn
    rcases List.mem_map.1 hn with ⟨e, he, rfl⟩
    rcases expectSnapshot_names fsEntry globs e he with ⟨f, hf, hname⟩
    rw [hname, hg f hf]
    simp
  unfold checkPair
  rw [hempty]
  rfl

/-- Witness for C10: a directory holding only `other.stdout` has no file
matching `node.*`, so the exit check for that pair passes. -/
theorem checkPair_vacuous_witness :
    checkPair [⟨"other.stdout", "all fine\n", 9⟩]
      (expectSnapshot [⟨"other.stdout", "all fine\n", 2⟩] ["node.*"]) 1
      "node.*" "MyError" = .ok () :=
  checkPair_vacuous_when_no_entry_match
    [⟨"other.stdout", "all fine\n", 2⟩]
    [⟨"other.stdout", "all fine\n", 9⟩] ["node.*"] 1 "node.*" "MyError"
    (by decide)

/-- `splitOnCh` never returns the empty list. -/
theorem splitOnCh_ne_nil (sep : Char) (l : List Char) :
    splitOnCh sep l ≠ [] := by
  induction l with
  | nil => simp [splitOnCh]
  | cons c rest ih =>
    rw [splitOnCh]
    by_cases h : c == sep
    · simp [h]
    · rw [if_neg h]
      rcases hs : splitOnCh sep rest with _ | ⟨h1, t1⟩ <;> simp

/-- Splitting distributes over a separator occurrence. -/
theorem splitOnCh_append (sep : Char) (a b : List Char) :
    splitOnCh sep (a ++ sep :: b) = splitOnCh sep a ++ splitOnCh sep b := by
  induction a with
  | nil => simp [splitOnCh]
  | cons c a' ih =>
    simp only [List.cons_append, splitOnCh, List.append_eq]
    by_cases h : c == sep
    · rw [if_pos h, if_pos h, ih]
      simp
    · rw [if_neg (by simp [h]), if_neg (by simp [h]), ih]
      rcases hs : splitOnCh sep a' with _ | ⟨h1, t1⟩
      · exact absurd hs (splitOnCh_ne_nil sep a')
      · simp

/-- Searching a `|`-join of patterns is searching each pattern in turn
(Python alternation), for a nonempty pattern list. -/
theorem reSearchL_joinPipeL (line : List Char) :
    ∀ l : List (List Char), l ≠ [] →
      reSearchL (joinPipeL l) line = l.any fun p => reSearchL p line
  | [], h => absurd rfl h
  | [x], _ => by simp [joinPipeL, reSearchL]
  | x :: y :: t, _ => by
    have ih := reSearchL_joinPipeL line (y :: t) (by simp)
    show reSearchL (x ++ '|' :: joinPipeL (y :: t)) line = _
    unfold reSearchL
    rw [splitOnCh_append, List.any_append]
    unfold reSearchL at ih
    rw [ih]
    simp [reSearchL]

/-- A join of at least two patterns is a truthy (nonempty) string. -/
theorem pyTruthy_joinPipeL_cons2 (x y : List Char) (t : List (List Char)) :
    pyTruthy ⟨joinPipeL (x :: y :: t)⟩ = true := by
  show (!(joinPipeL (x :: y :: t)).isEmpty) = true
  cases x <;> simp [joinPipeL]

/-- C5: the effective ignore pattern is the alternation of the baseline
list and every stored rule whose glob matches the file name, across all
groups.  For a file matched by the globs of two rules with regexes `R1`
and `R2`, the sweep's per-line reporting test (`reportedLine`, the filter
of `sweepFile`) rejects every line matching `R1` or `R2`, and accepts
every line that matches the generic error signature but matches neither
any baseline regex nor the regex of any rule applicable to the file. -/
theorem ignore_rule_union_two_groups
    (ignore_rules : List (String × String)) (g1 R1 g2 R2 logname : String)
    (h1 : (g1, R1) ∈ ignore_rules) (h2 : (g2, R2) ∈ ignore_rules)
    (hm1 : globMatch g1 logname = true) (hm2 : globMatch g2 logname = true) :
    (∀ line, reSearch R1 line = true ∨ reSearch R2 line = true →
      reportedLine (get_ignore_regex ignore_rules ERRORS_IGNORED logname)
        line = false) ∧
    (∀ line, errorsRe line = true →
      (∀ b ∈ ERRORS_IGNORED, reSearch b line = false) →
      (∀ gr ∈ ignore_rules, globMatch gr.1 logname = true →
        reSearch gr.2 line = false) →
      reportedLine (get_ignore_regex ignore_rules ERRORS_IGNORED logname)
        line = true) := by
  set flt := ignore_rules.filter fun gr => globMatch gr.1 logname with hflt
  set L := ERRORS_IGNORED.map String.data ++ flt.map (fun gr => gr.2.data)
    with hL
  have hig : get_ignore_regex ignore_rules ERRORS_IGNORED logname =
      ⟨joinPipeL L⟩ := rfl
  have hLne : L ≠ [] := by
    rw [hL]
    simp [ERRORS_IGNORED]
  have htruthy : pyTruthy ⟨joinPipeL L⟩ = true := by
    have : L = "Connection Attempt Exception".data ::
        "EKGServerStartupError".data ::
        (ERRORS_IGNORED.map String.data).drop 2 ++
          flt.map (fun gr => gr.2.data) := rfl
    rw [this]
    exact pyTruthy_joinPipeL_cons2 _ _ _
  have hsearch : ∀ line : String,
      reSearch ⟨joinPipeL L⟩ line = L.any fun p => reSearchL p line.data :=
    fun line => reSearchL_joinPipeL line.data L hLne
  constructor
  · intro line hr
    rw [hig]
    unfold reportedLine
    rw [htruthy, hsearch]
    have hany : (L.any fun p => reSearchL p line.data) = true := by
      rw [List.any_eq_true]
      rcases hr with hr | hr
      · refine ⟨R1.data, ?_, hr⟩
        rw [hL]
        refine List.mem_append_right _ (List.mem_map.2 ⟨(g1, R1), ?_, rfl⟩)
        rw [hflt]
        exact List.mem_filter.2 ⟨h1, hm1⟩
      · refine ⟨R2.data, ?_, hr⟩
        rw [hL]
        refine List.mem_append_right _ (List.mem_map.2 ⟨(g2, R2), ?_, rfl⟩)
        rw [hflt]
        exact List.mem_filter.2 ⟨h2, hm2⟩
    rw [hany]
    simp
  · intro line herr hbase hrule
    rw [hig]
    unfold reportedLine
    rw [htruthy, hsearch, herr]
    have hany : (L.any fun p => reSearchL p line.data) = false := by
      rw [List.any_eq_false]
      intro p hp
      rw [hL] at hp
      rcases List.mem_append.1 hp with hp | hp
      · rcases List.mem_map.1 hp with ⟨b, hb, rfl⟩
        exact fun hc => absurd (hbase b hb) (by simp [reSearch, hc])
      · rcases List.mem_map.1 hp with ⟨gr, hgr, rfl⟩
        rw [hflt] at hgr
        rcases List.mem_filter.1 hgr with ⟨hmem, hglob⟩
        exact fun hc => absurd (hrule gr hmem hglob) (by simp [reSearch, hc])
    rw [hany]
    simp

/-- Witness for C5: two rules from different groups both matching
`node.stdout`; a line matching the second rule is suppressed, and an
error-signature line matching nothing is reported. -/
theorem ignore_rule_union_two_groups_witness :
    reportedLine
      (get_ignore_regex [("*.stdout", "aaa"), ("node.*", "bbb")]
        ERRORS_IGNORED "node.stdout") "x failed bbb x" = false ∧
    reportedLine
      (get_ignore_regex [("*.stdout", "aaa"), ("node.*", "bbb")]
        ERRORS_IGNORED "node.stdout") "w failure w" = true := by
  have h := ignore_rule_union_two_groups
    [("*.stdout", "aaa"), ("node.*", "bbb")] "*.stdout" "aaa" "node.*" "bbb"
    "node.stdout" (by decide) (by decide) (by decide) (by decide)
  exact ⟨h.1 "x failed bbb x" (Or.inr (by decide)),
    h.2 "w failure w" (by decide) (by decide) (by decide)⟩

/-- Unfolding equation of `containsL`. -/
theorem containsL_eq (hay needle : List Char) :
    containsL hay needle =
      (isPreL needle hay ||
        match hay with
        | [] => false
        | _ :: t => containsL t needle) := by
  cases hay <;> rfl

/-- A pattern is a prefix of itself followed by anything. -/
theorem isPreL_append_self (p q : List Char) : isPreL p (p ++ q) = true := by
  induction p with
  | nil => rfl
  | cons a as ih => simp [isPreL, ih]

/-- A list containing a suffix that starts with the needle contains the
needle. -/
theorem containsL_append_isPre (xs ys pat : List Char)
    (h : isPreL pat ys = true) : containsL (xs ++ ys) pat = true := by
  induction xs with
  | nil =>
    simp only [List.nil_append]
    rw [containsL_eq, h]
    rfl
  | cons c xs' ih =>
    rw [List.cons_append, containsL_eq]
    simp [ih]

/-- If the head pair of a list is not `";;"`-shaped, the separator prefix
test fails. -/
theorem not_semi_pair (c1 c2 : Char) (rest : List Char)
    (h : isPreL ";;".data (c1 :: c2 :: rest) = false) :
    (c1 == ';' && c2 == ';') = false := by
  by_cases hc1 : c1 = ';'
  · by_cases hc2 : c2 = ';'
    · subst hc1
      subst hc2
      have ht : isPreL ";;".data (';' :: ';' :: rest) = true := rfl
      rw [ht] at h
      cases h
    · simp [hc2]
  · simp [hc1]

/-- A list without the `";;"` separator splits into a single field. -/
theorem splitSemi_no_sep : ∀ l : List Char,
    containsL l ";;".data = false → splitSemi l = [l]
  | [], _ => rfl
  | [c], _ => rfl
  | c1 :: c2 :: rest, h => by
    rw [containsL_eq] at h
    rcases Bool.or_eq_false_iff.1 h with ⟨h1, h2⟩
    have hpair := not_semi_pair c1 c2 rest h1
    have ih := splitSemi_no_sep (c2 :: rest) h2
    simp only [splitSemi]
    rw [if_neg (by simp [hpair]), ih]

/-- Splitting `g ++ ";;" ++ r` at the inserted separator: with no `";;"`
inside `g` or `r` and `g` not ending in `';'`, the leftmost separator
occurrence is the inserted one and the split returns exactly the two
fields. -/
theorem splitSemi_boundary : ∀ g : List Char,
    containsL g ";;".data = false → g.getLast? ≠ some ';' →
    ∀ r : List Char, containsL r ";;".data = false →
      splitSemi (g ++ ';' :: ';' :: r) = [g, r]
  | [], _, _, r, hr => by
    have hcond : ((';' == ';') && (';' == ';')) = true := rfl
    simp only [List.nil_append, splitSemi]
    rw [if_pos hcond, splitSemi_no_sep r hr]
  | [c], _, hlast, r, hr => by
    have hc : (c == ';') = false := by
      simp only [List.getLast?_singleton] at hlast
      simp
      intro hceq
      exact hlast (by rw [hceq])
    have hcond : ((';' == ';') && (';' == ';')) = true := rfl
    simp only [List.cons_append, List.nil_append, splitSemi]
    rw [if_neg (by simp [hc]), if_pos hcond, splitSemi_no_sep r hr]
  | c1 :: c2 :: g', hg, hlast, r, hr => by
    rw [containsL_eq] at hg
    rcases Bool.or_eq_false_iff.1 hg with ⟨h1, h2⟩
    have hpair := not_semi_pair c1 c2 g' h1
    have hlast' : (c2 :: g').getLast? ≠ some ';' := by
      rwa [List.getLast?_cons_cons] at hlast
    have ih := splitSemi_boundary (c2 :: g') h2 hlast' r hr
    rw [List.cons_append] at ih
    rw [List.cons_append, List.cons_append]
    simp only [splitSemi]
    rw [if_neg (by simp [hpair])]
    rw [ih]

/-- A list without the separator splits into a single field. -/
theorem splitOnCh_no_sep (sep : Char) (l : List Char)
    (h : ∀ c ∈ l, (c == sep) = false) : splitOnCh sep l = [l] := by
  induction l with
  | nil => rfl
  | cons c rest ih =>
    simp only [splitOnCh]
    rw [if_neg (by simp [h c (List.mem_cons_self c rest)]),
      ih fun x hx => h x (List.mem_cons_of_mem c hx)]

/-- Stripping trailing newlines from a newline-free list is the
identity. -/
theorem rstripNlL_no_nl (l : List Char)
    (h : ∀ c ∈ l, (c == '\n') = false) : rstripNlL l = l := by
  unfold rstripNlL
  rcases hrev : l.reverse with _ | ⟨c, t⟩
  · simp_all
  · have hc : (c == '\n') = false := by
      apply h
      have : c ∈ l.reverse := by
        rw [hrev]
        exact List.mem_cons_self c t
      simpa using this
    rw [show List.dropWhile (fun x => x == '\n') (c :: t) = c :: t from by
      simp [List.dropWhile, hc]]
    rw [← hrev, List.reverse_reverse]

/-- Splitting a list that ends with exactly one terminating newline:
a `pyLinesL` building block. -/
theorem pyLinesL_single_line (l : List Char)
    (h : ∀ c ∈ l, (c == '\n') = false) : pyLinesL (l ++ ['\n']) = [l] := by
  unfold pyLinesL
  have e : l ++ ['\n'] = l ++ '\n' :: [] := rfl
  rw [e, splitOnCh_append, splitOnCh_no_sep '\n' l h]
  simp [splitOnCh]

/-- Decomposing a list at its last element. -/
theorem eq_dropLast_append_of_getLast? :
    ∀ (l : List Char) (a : Char), l.getLast? = some a →
      l = l.dropLast ++ [a]
  | [], a, h => by cases h
  | [c], a, h => by
    simp only [List.getLast?_singleton, Option.some.injEq] at h
    subst h
    rfl
  | c :: d :: t, a, h => by
    rw [List.getLast?_cons_cons] at h
    have ih := eq_dropLast_append_of_getLast? (d :: t) a h
    calc c :: d :: t = c :: ((d :: t).dropLast ++ [a]) := by rw [← ih]
    _ = (c :: d :: t).dropLast ++ [a] := by simp

/-- Appending one newline-terminated line to a newline-terminated (or
empty) file appends one line to its `pyLinesL`. -/
theorem pyLinesL_append_line (c l : List Char)
    (hc : c = [] ∨ c.getLast? = some '\n')
    (h : ∀ x ∈ l, (x == '\n') = false) :
    pyLinesL (c ++ (l ++ ['\n'])) = pyLinesL c ++ [l] := by
  rcases hc with rfl | hc
  · simpa using pyLinesL_single_line l h
  · have hdecomp := eq_dropLast_append_of_getLast? c '\n' hc
    set D := c.dropLast with hD
    have e1 : c ++ (l ++ ['\n']) = D ++ '\n' :: (l ++ ['\n']) := by
      conv_lhs => rw [hdecomp]
      simp
    have e2 : c = D ++ '\n' :: [] := by
      conv_lhs => rw [hdecomp]
    have hsplit1 : splitOnCh '\n' (c ++ (l ++ ['\n'])) =
        (splitOnCh '\n' D ++ [l]) ++ [[]] := by
      rw [e1, splitOnCh_append,
        show l ++ ['\n'] = l ++ '\n' :: [] from rfl, splitOnCh_append,
        splitOnCh_no_sep '\n' l h]
      simp [splitOnCh]
    have hsplit2 : splitOnCh '\n' c = splitOnCh '\n' D ++ [[]] := by
      rw [e2, splitOnCh_append]
      rfl
    unfold pyLinesL
    rw [hsplit1, hsplit2]
    rw [if_pos (List.getLast?_concat _), if_pos (List.getLast?_concat _)]
    rw [List.dropLast_concat, List.dropLast_concat]

/-- Parsing the single stored line of a well-formed rule: splitting at the
inserted separator recovers the two fields. -/
theorem parseRuleLines_rule_line (g r : List Char)
    (hg : containsL g ";;".data = false) (hlast : g.getLast? ≠ some ';')
    (hr : containsL r ";;".data = false)
    (hrnl : ∀ c ∈ r, (c == '\n') = false) :
    parseRuleLines [g ++ ';' :: ';' :: r] =
      .ok [((⟨g⟩ : String), (⟨r⟩ : String))] := by
  have hcont : containsL (g ++ ';' :: ';' :: r) ";;".data = true :=
    containsL_append_isPre g _ _ rfl
  simp only [parseRuleLines]
  rw [if_pos hcont, splitSemi_boundary g hg hlast r hr]
  simp only [rstripNlL_no_nl r hrnl]
  rfl

/-- Parsing a concatenation of line blocks that both parse. -/
theorem parseRuleLines_append_ok :
    ∀ (A B : List (List Char)) (ra rb : List (String × String)),
      parseRuleLines A = .ok ra → parseRuleLines B = .ok rb →
      parseRuleLines (A ++ B) = .ok (ra ++ rb)
  | [], _, ra, rb, ha, hb => by
    cases ha
    simpa using hb
  | l :: A', B, ra, rb, ha, hb => by
    rw [List.cons_append]
    simp only [parseRuleLines] at ha ⊢
    by_cases hc : containsL l ";;".data
    · rw [if_pos hc] at ha ⊢
      rcases hsp : splitSemi l with _ | ⟨x, _ | ⟨y, _ | ⟨z, more⟩⟩⟩ <;>
        rw [hsp] at ha
      · cases ha
      · cases ha
      · rcases hA' : parseRuleLines A' with e | ra'
        · rw [hA'] at ha
          cases ha
        · rw [hA'] at ha
          have hra : ra = (⟨x⟩, (⟨rstripNlL y⟩ : String)) :: ra' := by
            cases ha
            rfl
          rw [parseRuleLines_append_ok A' B ra' rb hA' hb, hra]
          rfl
      · cases ha
    · rw [if_neg hc] at ha ⊢
      exact parseRuleLines_append_ok A' B ra rb ha hb

/-- If every rules file parses, the collection succeeds and contains every
file's parsed rules. -/
theorem girf_ok_of_parses :
    ∀ fl : List PFile,
      (∀ f ∈ fl, ∃ rf, parseRuleLines (pyLinesL f.content.data) = .ok rf) →
      ∃ rs, getIgnoreRulesFiles fl = .ok rs ∧
        ∀ f ∈ fl, ∀ rf, parseRuleLines (pyLinesL f.content.data) = .ok rf →
          ∀ x ∈ rf, x ∈ rs
  | [], _ => ⟨[], rfl, by intro f hf; cases hf⟩
  | f :: rest, h => by
    rcases h f (List.mem_cons_self f rest) with ⟨rf, hrf⟩
    rcases girf_ok_of_parses rest
        (fun p hp => h p (List.mem_cons_of_mem f hp)) with ⟨rs', hgirf, hmem⟩
    refine ⟨rf ++ rs', ?_, ?_⟩
    · simp only [getIgnoreRulesFiles]
      rw [hrf, hgirf]
    · intro p hpmem rp hrp x hx
      rcases List.mem_cons.1 hpmem with rfl | hpmem'
      · rw [hrf] at hrp
        injection hrp with e
        subst e
        exact List.mem_append_left _ hx
      · exact List.mem_append_right _ (hmem p hpmem' rp hrp x hx)

/-- If the collection succeeds, every individual rules file parses. -/
theorem girf_ok_mem :
    ∀ (fl : List PFile) (rs : List (String × String)),
      getIgnoreRulesFiles fl = .ok rs →
      ∀ f ∈ fl, ∃ rf, parseRuleLines (pyLinesL f.content.data) = .ok rf
  | [], _, _, f, hf => by cases hf
  | f0 :: rest, rs, h, f, hf => by
    simp only [getIgnoreRulesFiles] at h
    rcases hp : parseRuleLines (pyLinesL f0.content.data) with e | rf0
    · rw [hp] at h
      cases h
    · rw [hp] at h
      rcases hg : getIgnoreRulesFiles rest with e | rs'
      · rw [hg] at h
        cases h
      · rcases List.mem_cons.1 hf with rfl | hf'
        · exact ⟨rf0, hp⟩
        · exact girf_ok_mem rest rs' hg f hf'

/-- The rules file name of any group id starts with the rule-file
prefix. -/
theorem rulesFileName_ruleish (rules_file_id : String) :
    isPreL ".errors_rules_".data (rulesFileName rules_file_id).data = true := by
  unfold rulesFileName
  rw [String.data_append]
  exact isPreL_append_self _ _

/-- C6 amended: after `add_ignore_rule(files_glob, regex, group_id)`,
`get_ignore_rules` succeeds and its result contains the pair — provided
the stored line parses back uniquely: neither field contains `";;"` or a
newline, the glob does not end in `';'`, the group's rule file (when it
already exists) is newline-terminated, and the store parsed successfully
before the call.  (The unrestricted claim is refuted by
`get_ignore_rules_raises_on_separator_in_regex`.) -/
theorem add_ignore_rule_then_get_contains
    (fs : FS) (g r rules_file_id : String) (now : Nat)
    (rs0 : List (String × String))
    (hws : get_ignore_rules fs = .ok rs0)
    (hnl : ∀ f ∈ fs, f.name = rulesFileName rules_file_id →
      f.content.data = [] ∨ f.content.data.getLast? = some '\n')
    (hgsemi : containsL g.data ";;".data = false)
    (hglast : g.data.getLast? ≠ some ';')
    (hgnl : ∀ c ∈ g.data, (c == '\n') = false)
    (hrsemi : containsL r.data ";;".data = false)
    (hrnl : ∀ c ∈ r.data, (c == '\n') = false) :
    ∃ rs', get_ignore_rules (add_ignore_rule fs g r rules_file_id now) =
      .ok rs' ∧ (g, r) ∈ rs' := by
  have hlinedata : (g ++ ";;" ++ r ++ "\n").data =
      (g.data ++ ';' :: ';' :: r.data) ++ ['\n'] := by
    simp [String.data_append]
  have hl'nl : ∀ c ∈ g.data ++ ';' :: ';' :: r.data, (c == '\n') = false := by
    intro c hc
    rcases List.mem_append.1 hc with h | h
    · exact hgnl c h
    · rcases List.mem_cons.1 h with rfl | h
      · rfl
      · rcases List.mem_cons.1 h with rfl | h
        · rfl
        · exact hrnl c h
  have hparse1 : parseRuleLines [g.data ++ ';' :: ';' :: r.data] =
      .ok [(g, r)] :=
    parseRuleLines_rule_line g.data r.data hgsemi hglast hrsemi hrnl
  have hmod : ∀ f, f ∈ fs → f.name = rulesFileName rules_file_id →
      ∀ rf, parseRuleLines (pyLinesL f.content.data) = .ok rf →
      parseRuleLines (pyLinesL (f.content ++ (g ++ ";;" ++ r ++ "\n")).data) =
        .ok (rf ++ [(g, r)]) := by
    intro f hfmem hfn rf hrf
    rw [String.data_append, hlinedata,
      pyLinesL_append_line _ _ (hnl f hfmem hfn) hl'nl]
    exact parseRuleLines_append_ok _ _ _ _ hrf hparse1
  show ∃ rs', getIgnoreRulesFiles
      ((appendFile fs (rulesFileName rules_file_id)
          (g ++ ";;" ++ r ++ "\n") now).filter
        fun f => isPreL ".errors_rules_".data f.name.data) =
      .ok rs' ∧ (g, r) ∈ rs'
  unfold appendFile
  by_cases hex : fs.any fun f => f.name == rulesFileName rules_file_id
  · rw [if_pos hex]
    set φ : PFile → PFile := fun f =>
      if f.name == rulesFileName rules_file_id then
        ⟨rulesFileName rules_file_id, f.content ++ (g ++ ";;" ++ r ++ "\n"),
          now⟩
      else f with hφ
    have hφname : ∀ f, (φ f).name = f.name := by
      intro f
      rw [hφ]
      by_cases h : f.name == rulesFileName rules_file_id
      · simp only [h, if_true]
        exact (eq_of_beq h).symm
      · simp [h]
    have hfilter : (fs.map φ).filter
        (fun f => isPreL ".errors_rules_".data f.name.data) =
        ((fs.filter fun f => isPreL ".errors_rules_".data f.name.data).map
          φ) := by
      rw [List.filter_map]
      congr 1
      apply List.filter_congr
      intro f _
      show isPreL ".errors_rules_".data (φ f).name.data =
        isPreL ".errors_rules_".data f.name.data
      rw [hφname f]
    have hall : ∀ f' ∈ (fs.filter fun f =>
          isPreL ".errors_rules_".data f.name.data).map φ,
        ∃ rf, parseRuleLines (pyLinesL f'.content.data) = .ok rf := by
      intro f' hf'
      rcases List.mem_map.1 hf' with ⟨f, hfmem, rfl⟩
      rcases girf_ok_mem _ rs0 hws f hfmem with ⟨rf, hrf⟩
      have hfsmem : f ∈ fs := (List.mem_filter.1 hfmem).1
      rw [hφ]
      by_cases h : f.name == rulesFileName rules_file_id
      · simp only [h, if_true]
        exact ⟨rf ++ [(g, r)], hmod f hfsmem (eq_of_beq h) rf hrf⟩
      · simp only [h]
        rw [if_neg (by simp [h])]
        exact ⟨rf, hrf⟩
    rcases girf_ok_of_parses _ hall with ⟨rs', hok, hmem⟩
    refine ⟨rs', by rw [hfilter]; exact hok, ?_⟩
    rcases List.any_eq_true.1 hex with ⟨F, hFmem, hFbeq⟩
    have hFn : F.name = rulesFileName rules_file_id := eq_of_beq hFbeq
    have hFrule : F ∈ fs.filter
        (fun f => isPreL ".errors_rules_".data f.name.data) :=
      List.mem_filter.2 ⟨hFmem, by rw [hFn]; exact rulesFileName_ruleish _⟩
    rcases girf_ok_mem _ rs0 hws F hFrule with ⟨rfF, hrfF⟩
    have hφFparse : parseRuleLines (pyLinesL (φ F).content.data) =
        .ok (rfF ++ [(g, r)]) := by
      rw [hφ]
      simp only [hFbeq, if_true]
      exact hmod F hFmem hFn rfF hrfF
    exact hmem (φ F) (List.mem_map_of_mem φ hFrule) _ hφFparse (g, r)
      (List.mem_append_right _ (List.mem_singleton.2 rfl))
  · rw [if_neg hex]
    have hnewparse : parseRuleLines
        (pyLinesL (⟨rulesFileName rules_file_id,
          g ++ ";;" ++ r ++ "\n", now⟩ : PFile).content.data) =
        .ok [(g, r)] := by
      show parseRuleLines (pyLinesL (g ++ ";;" ++ r ++ "\n").data) = _
      rw [hlinedata, pyLinesL_single_line _ hl'nl]
      exact hparse1
    have hfilter2 : (fs ++ [(⟨rulesFileName rules_file_id,
        g ++ ";;" ++ r ++ "\n", now⟩ : PFile)]).filter
          (fun f => isPreL ".errors_rules_".data f.name.data) =
        (fs.filter fun f => isPreL ".errors_rules_".data f.name.data) ++
          [(⟨rulesFileName rules_file_id, g ++ ";;" ++ r ++ "\n", now⟩ :
            PFile)] := by
      rw [List.filter_append]
      simp [List.filter_cons]
      exact rulesFileName_ruleish rules_file_id
    have hall : ∀ f' ∈ (fs.filter fun f =>
          isPreL ".errors_rules_".data f.name.data) ++
          [(⟨rulesFileName rules_file_id, g ++ ";;" ++ r ++ "\n", now⟩ :
            PFile)],
        ∃ rf, parseRuleLines (pyLinesL f'.content.data) = .ok rf := by
      intro f' hf'
      rcases List.mem_append.1 hf' with h | h
      · exact girf_ok_mem _ rs0 hws f' h
      · rcases List.mem_singleton.1 h with rfl
        exact ⟨[(g, r)], hnewparse⟩
    rcases girf_ok_of_parses _ hall with ⟨rs', hok, hmem⟩
    refine ⟨rs', by rw [hfilter2]; exact hok, ?_⟩
    exact hmem _ (List.mem_append_right _ (List.mem_singleton.2 rfl)) _
      hnewparse (g, r) (List.mem_singleton.2 rfl)

/-- Witness for C6 amended: one prior well-formed rule in the store, then
a new well-formed rule is added and read back. -/
theorem add_ignore_rule_then_get_contains_witness :
    ∃ rs', get_ignore_rules
      (add_ignore_rule [⟨".errors_rules_g0", "a.txt;;oldrule\n", 1⟩]
        "node.stdout" "disk full" "g1" 2) = .ok rs' ∧
      ("node.stdout", "disk full") ∈ rs' :=
  add_ignore_rule_then_get_contains
    [⟨".errors_rules_g0", "a.txt;;oldrule\n", 1⟩]
    "node.stdout" "disk full" "g1" 2 [("a.txt", "oldrule")]
    (by rfl) (by decide) (by decide) (by decide) (by decide) (by decide)
    (by decide)

/-- Events never selected pass the under-lock check at any depth. -/
theorem opsUnderLock_of_not_sel (sel : FsEvent → Bool) :
    ∀ tr : List FsEvent, (∀ e ∈ tr, sel e = false) →
      ∀ d, opsUnderLock sel d tr = true
  | [], _, _ => rfl
  | e :: tr, h, d => by
    have htr := opsUnderLock_of_not_sel sel tr
      (fun x hx => h x (List.mem_cons_of_mem e hx))
    have he := h e (List.mem_cons_self e tr)
    cases e <;> simp [opsUnderLock, htr _] <;> simp_all

/-- Rule reads inside the locked region pass the under-lock check. -/
theorem opsUnderLock_replicate_ruleRead (sel : FsEvent → Bool)
    (hsel : sel .ruleRead = true) :
    ∀ (n d : Nat), 0 < d → ∀ tr, opsUnderLock sel d tr = true →
      opsUnderLock sel d (List.replicate n .ruleRead ++ tr) = true
  | 0, d, _, tr, htr => by simpa using htr
  | n + 1, d, hd, tr, htr => by
    rw [List.replicate_succ, List.cons_append]
    simp [opsUnderLock, hsel, hd,
      opsUnderLock_replicate_ruleRead sel hsel n d hd tr htr]

/-- Rule reads are transparent to the outside-lock check for bookmark
events. -/
theorem opsOutsideLock_replicate_ruleRead (sel : FsEvent → Bool)
    (hsel : sel .ruleRead = false) :
    ∀ (n d : Nat) (tr : List FsEvent),
      opsOutsideLock sel d tr = true →
      opsOutsideLock sel d (List.replicate n .ruleRead ++ tr) = true
  | 0, _, tr, htr => by simpa using htr
  | n + 1, d, tr, htr => by
    rw [List.replicate_succ, List.cons_append]
    simp only [opsOutsideLock, hsel]
    simp [opsOutsideLock_replicate_ruleRead sel hsel n d tr htr]

/-- With no lock events in the trace, every selected event is outside the
lock when the depth is zero. -/
theorem opsOutsideLock_of_no_lock_events (sel : FsEvent → Bool) :
    ∀ tr : List FsEvent,
      (∀ e ∈ tr, e ≠ .lockAcquire ∧ e ≠ .lockRelease) →
      opsOutsideLock sel 0 tr = true
  | [], _ => rfl
  | e :: tr, h => by
    have htr := opsOutsideLock_of_no_lock_events sel tr
      (fun x hx => h x (List.mem_cons_of_mem e hx))
    have he := h e (List.mem_cons_self e tr)
    cases e
    all_goals simp [opsOutsideLock, htr]
    all_goals simp_all

/-- Every event of a per-candidate sweep body is a bookmark or log-file
access — in particular not a lock or rule-store event. -/
theorem mem_sweepFileTrace (e : FsEvent) (b : Bool) (n : Nat)
    (h : e ∈ sweepFileTrace b n) :
    e = .bookmarkRead ∨ e = .bookmarkWrite ∨ e = .logRead := by
  unfold sweepFileTrace at h
  rcases List.mem_append.1 h with h | h
  · cases b
    all_goals simp_all
  · rcases List.mem_cons.1 h with rfl | h
    · right; right; rfl
    · rcases List.mem_cons.1 h with rfl | h
      · right; left; rfl
      · right; right
        exact (List.eq_of_mem_replicate h)

/-- Every event after the rule-read phase of the sweep comes from some
per-candidate body. -/
theorem mem_sweep_tail (files : List (Bool × Nat)) (e : FsEvent)
    (h : e ∈ (files.map fun f => sweepFileTrace f.1 f.2).flatten) :
    e = .bookmarkRead ∨ e = .bookmarkWrite ∨ e = .logRead := by
  rcases List.mem_flatten.1 h with ⟨tr, htr, he⟩
  rcases List.mem_map.1 htr with ⟨f, _, rfl⟩
  exact mem_sweepFileTrace e f.1 f.2 he

/-- C9 counterexample: in the sweep's trace the bookmark sidecar
operations happen after `get_ignore_rules` has released the lock; already
with no rule files and a single one-segment candidate the bookmark read
and write fail the under-lock check. -/
theorem sweep_bookmark_ops_without_lock :
    opsUnderLock isBookmarkOp 0
      (searchClusterArtifactsTrace 0 [(true, 1)]) = false := by
  decide

/-- C9 amended: the rule-store operations of `add_ignore_rule`,
`del_rules_file` and `get_ignore_rules` — including the rule reads the
sweep performs through `get_ignore_rules` — all run under the advisory
lock, and the lock is released before the scanning starts; the bookmark
sidecar read and write inside `search_cluster_artifacts` run entirely
outside the lock (no lock is ever held across the scan). -/
theorem lock_discipline_rule_store_only (numRuleFiles : Nat)
    (files : List (Bool × Nat)) :
    opsUnderLock isRuleStoreOp 0 addIgnoreRuleTrace = true ∧
    opsUnderLock isRuleStoreOp 0 delRulesFileTrace = true ∧
    opsUnderLock isRuleStoreOp 0 (getIgnoreRulesTrace numRuleFiles) = true ∧
    opsUnderLock isRuleStoreOp 0
      (searchClusterArtifactsTrace numRuleFiles files) = true ∧
    opsOutsideLock isBookmarkOp 0
      (searchClusterArtifactsTrace numRuleFiles files) = true := by
  have hTailRule : ∀ e ∈ (files.map fun f =>
      sweepFileTrace f.1 f.2).flatten, isRuleStoreOp e = false := by
    intro e he
    rcases mem_sweep_tail files e he with rfl | rfl | rfl <;> rfl
  have hTailNoLock : ∀ e ∈ (files.map fun f =>
      sweepFileTrace f.1 f.2).flatten,
      e ≠ FsEvent.lockAcquire ∧ e ≠ FsEvent.lockRelease := by
    intro e he
    rcases mem_sweep_tail files e he with rfl | rfl | rfl <;> simp
  refine ⟨by decide, by decide, ?_, ?_, ?_⟩
  · show opsUnderLock isRuleStoreOp 0
      (.lockAcquire :: (List.replicate numRuleFiles .ruleRead ++
        [.lockRelease])) = true
    simp only [opsUnderLock]
    exact opsUnderLock_replicate_ruleRead isRuleStoreOp rfl numRuleFiles 1
      (by omega) [.lockRelease] rfl
  · show opsUnderLock isRuleStoreOp 0
      ((FsEvent.lockAcquire :: (List.replicate numRuleFiles .ruleRead ++
          [FsEvent.lockRelease])) ++
        (files.map fun f => sweepFileTrace f.1 f.2).flatten) = true
    rw [List.cons_append, List.append_assoc, List.singleton_append]
    simp only [opsUnderLock]
    refine opsUnderLock_replicate_ruleRead isRuleStoreOp rfl numRuleFiles 1
      (by omega) _ ?_
    simp only [opsUnderLock]
    exact opsUnderLock_of_not_sel isRuleStoreOp _ hTailRule _
  · show opsOutsideLock isBookmarkOp 0
      ((FsEvent.lockAcquire :: (List.replicate numRuleFiles .ruleRead ++
          [FsEvent.lockRelease])) ++
        (files.map fun f => sweepFileTrace f.1 f.2).flatten) = true
    rw [List.cons_append, List.append_assoc, List.singleton_append]
    simp only [opsOutsideLock]
    refine opsOutsideLock_replicate_ruleRead isBookmarkOp rfl numRuleFiles 1
      _ ?_
    simp only [opsOutsideLock]
    exact opsOutsideLock_of_no_lock_events isBookmarkOp _ hTailNoLock

/-- An in-place update keeps every file's name. -/
theorem writeFile_update_name (n c : String) (t : Nat) (f : PFile) :
    (if f.name == n then (⟨n, c, t⟩ : PFile) else f).name = f.name := by
  by_cases h : f.name == n
  · simp only [h, if_true]
    exact (eq_of_beq h).symm
  · simp [h]

/-- After a write, looking the file up by its name yields the written
file. -/
theorem lookupFile_writeFile_self (fs : FS) (n c : String) (t : Nat) :
    lookupFile (writeFile fs n c t) n = some ⟨n, c, t⟩ := by
  unfold writeFile
  by_cases h : fs.any fun f => f.name == n
  · rw [if_pos h]
    induction fs with
    | nil => simp at h
    | cons f0 rest ih =>
      by_cases h0 : f0.name == n
      · simp [lookupFile, List.find?, h0]
      · have h' : rest.any (fun f => f.name == n) = true := by
          simp only [List.any_cons, h0] at h
          simpa using h
        simpa [lookupFile, List.find?, h0] using ih h'
  · rw [if_neg h]
    induction fs with
    | nil => simp [lookupFile, List.find?]
    | cons f0 rest ih =>
      have h0 : (f0.name == n) = false := by
        rcases Bool.eq_false_or_eq_true (f0.name == n) with h0 | h0
        · exfalso
          apply h
          rw [List.any_cons, h0]
          rfl
        · exact h0
      have h' : ¬rest.any (fun f => f.name == n) = true := by
        intro hc
        apply h
        rw [List.any_cons, hc]
        simp
      simpa [lookupFile, List.find?, h0] using ih h'

/-- A write does not change lookups of other names. -/
theorem lookupFile_writeFile_other (fs : FS) (n c : String) (t : Nat)
    (m : String) (hm : m ≠ n) :
    lookupFile (writeFile fs n c t) m = lookupFile fs m := by
  unfold writeFile
  by_cases h : fs.any fun f => f.name == n
  · rw [if_pos h]
    clear h
    induction fs with
    | nil => rfl
    | cons f0 rest ih =>
      by_cases h0 : f0.name == n
      · have hf0 : f0.name = n := eq_of_beq h0
        have hpred : (n == m) = false := by
          simp
          exact fun hc => hm hc.symm
        have hpred0 : (f0.name == m) = false := by
          rw [hf0]
          exact hpred
        simpa [lookupFile, List.find?, h0, hpred, hpred0] using ih
      · by_cases hp : f0.name == m
        · simp [lookupFile, List.find?, h0, hp]
        · simpa [lookupFile, List.find?, h0, hp] using ih
  · rw [if_neg h]
    clear h
    induction fs with
    | nil =>
      have : (n == m) = false := by
        simp
        exact fun hc => hm hc.symm
      simp [lookupFile, List.find?, this]
    | cons f0 rest ih =>
      by_cases hp : f0.name == m
      · simp [lookupFile, List.find?, hp]
      · simpa [lookupFile, List.find?, hp] using ih

/-- Membership after a write: an old file or the written one. -/
theorem mem_writeFile (fs : FS) (n c : String) (t : Nat) (f : PFile)
    (hf : f ∈ writeFile fs n c t) : f ∈ fs ∨ f = ⟨n, c, t⟩ := by
  unfold writeFile at hf
  by_cases h : fs.any fun f => f.name == n
  · rw [if_pos h] at hf
    rcases List.mem_map.1 hf with ⟨f0, hf0, rfl⟩
    by_cases h0 : f0.name == n
    · rw [if_pos h0]
      exact Or.inr rfl
    · rw [if_neg (by simp [h0])]
      exact Or.inl hf0
  · rw [if_neg h] at hf
    rcases List.mem_append.1 hf with h' | h'
    · exact Or.inl h'
    · exact Or.inr (List.mem_singleton.1 h')

/-- A write preserves distinctness of names. -/
theorem nodup_writeFile (fs : FS) (n c : String) (t : Nat)
    (hnd : (fs.map PFile.name).Nodup) :
    ((writeFile fs n c t).map PFile.name).Nodup := by
  unfold writeFile
  by_cases h : fs.any fun f => f.name == n
  · rw [if_pos h]
    rw [List.map_map]
    have : (fs.map fun f =>
        (PFile.name ∘ fun f => if f.name == n then (⟨n, c, t⟩ : PFile)
          else f) f) = fs.map PFile.name := by
      apply List.map_congr_left
      intro f _
      exact writeFile_update_name n c t f
    rw [this]
    exact hnd
  · rw [if_neg h]
    rw [List.map_append]
    rw [List.nodup_append]
    refine ⟨hnd, List.nodup_singleton n, ?_⟩
    intro a ha hb
    rcases List.mem_map.1 ha with ⟨f, hfmem, rfl⟩
    rcases List.mem_singleton.1 hb with h'
    have : fs.any (fun f => f.name == n) = true :=
      List.any_eq_true.2 ⟨f, hfmem, by simp [h']⟩
    exact h this

/-- In a directory with distinct names, looking up a member's name finds
that member. -/
theorem lookupFile_of_mem (fs : FS) (f : PFile)
    (hnd : (fs.map PFile.name).Nodup) (hf : f ∈ fs) :
    lookupFile fs f.name = some f := by
  induction fs with
  | nil => cases hf
  | cons f0 rest ih =>
    rcases List.mem_cons.1 hf with rfl | hf'
    · simp [lookupFile, List.find?]
    · have hnd' : (rest.map PFile.name).Nodup :=
        (List.nodup_cons.1 hnd).2
      have hne : (f0.name == f.name) = false := by
        simp
        intro hc
        exact (List.nodup_cons.1 hnd).1
          (hc ▸ List.mem_map_of_mem PFile.name hf')
      simpa [lookupFile, List.find?, hne] using ih hnd' hf'

/-- The decimal digit characters written by `natRepr` are digits. -/
theorem digitChar_digit (n : Nat) :
    (48 ≤ (digitChar n).toNat && (digitChar n).toNat ≤ 57) = true := by
  unfold digitChar
  have hlt : n % 10 < 10 := Nat.mod_lt _ (by omega)
  generalize hm : n % 10 = m
  rw [hm] at hlt
  interval_cases m <;> decide

/-- Every character of a written numeral is a digit. -/
theorem natCharsAux_digits :
    ∀ (fuel n : Nat), ∀ c ∈ natCharsAux fuel n,
      (48 ≤ c.toNat && c.toNat ≤ 57) = true
  | 0, n, c, hc => by
    simp only [natCharsAux, List.mem_singleton] at hc
    subst hc
    exact digitChar_digit n
  | fuel + 1, n, c, hc => by
    unfold natCharsAux at hc
    by_cases h : n < 10
    · rw [if_pos h] at hc
      rcases List.mem_singleton.1 hc with rfl
      exact digitChar_digit n
    · rw [if_neg h] at hc
      rcases List.mem_append.1 hc with h' | h'
      · exact natCharsAux_digits fuel (n / 10) c h'
      · rcases List.mem_singleton.1 h' with rfl
        exact digitChar_digit n

/-- Lowercasing fixes digits. -/
theorem lowerChar_digit (c : Char)
    (h : (48 ≤ c.toNat && c.toNat ≤ 57) = true) : lowerChar c = c := by
  unfold lowerChar
  simp only [Bool.and_eq_true, decide_eq_true_eq] at h
  rw [if_neg (by omega)]

/-- A literal token starting with a non-digit is never contained in an
all-digit list. -/
theorem containsL_digits_false (d : Char) (rest hay : List Char)
    (hd : (48 ≤ d.toNat && d.toNat ≤ 57) = false)
    (hhay : ∀ c ∈ hay, (48 ≤ c.toNat && c.toNat ≤ 57) = true) :
    containsL hay (d :: rest) = false := by
  induction hay with
  | nil => rfl
  | cons c t ih =>
    rw [containsL_eq]
    have hne : (d == c) = false := by
      simp
      intro hc
      rw [hc] at hd
      rw [hhay c (List.mem_cons_self c t)] at hd
      cases hd
    have hpre : isPreL (d :: rest) (c :: t) = false := by
      show (d == c && isPreL rest t) = false
      rw [hne]
      rfl
    rw [hpre]
    show (false || containsL t (d :: rest)) = false
    rw [ih fun x hx => hhay x (List.mem_cons_of_mem c hx)]
    rfl

/-- The generic error signature never matches an all-digit line. -/
theorem errorsRe_digits_false (l : List Char)
    (h : ∀ c ∈ l, (48 ≤ c.toNat && c.toNat ≤ 57) = true) :
    errorsRe ⟨l⟩ = false := by
  unfold errorsRe
  have hlow : lowerL l = l := by
    unfold lowerL
    rw [show l.map lowerChar = l.map id by
      apply List.map_congr_left
      intro c hc
      exact lowerChar_digit c (h c hc), List.map_id]
  show (containsL (lowerL (String.data ⟨l⟩)) ":error:".data ||
      containsL (lowerL (String.data ⟨l⟩)) "failed".data ||
      containsL (lowerL (String.data ⟨l⟩)) "failure".data) = false
  have hdata : String.data ⟨l⟩ = l := rfl
  rw [hdata, hlow]
  rw [show ":error:".data = ':' :: "error:".data from rfl,
    show "failed".data = 'f' :: "ailed".data from rfl,
    show "failure".data = 'f' :: "ailure".data from rfl]
  rw [containsL_digits_false _ _ _ (by decide) h,
    containsL_digits_false _ _ _ (by decide) h,
    containsL_digits_false _ _ _ (by decide) h]
  rfl

/-- Characters of split fields come from the split list. -/
theorem mem_splitOnCh_subset (sep : Char) :
    ∀ (cs part : List Char), part ∈ splitOnCh sep cs →
      ∀ c ∈ part, c ∈ cs
  | [], part, hp, c, hc => by
    rcases List.mem_singleton.1 hp with rfl
    cases hc
  | c0 :: rest, part, hp, c, hc => by
    rw [splitOnCh] at hp
    by_cases h0 : c0 == sep
    · rw [if_pos h0] at hp
      rcases List.mem_cons.1 hp with rfl | hp'
      · cases hc
      · exact List.mem_cons_of_mem c0
          (mem_splitOnCh_subset sep rest part hp' c hc)
    · rw [if_neg h0] at hp
      rcases hs : splitOnCh sep rest with _ | ⟨h1, t1⟩
      · exact absurd hs (splitOnCh_ne_nil sep rest)
      · rw [hs] at hp
        rcases List.mem_cons.1 hp with rfl | hp'
        · rcases List.mem_cons.1 hc with rfl | hc'
          · exact List.mem_cons_self c rest
          · exact List.mem_cons_of_mem c0
              (mem_splitOnCh_subset sep rest h1
                (hs ▸ List.mem_cons_self h1 t1) c hc')
        · exact List.mem_cons_of_mem c0
            (mem_splitOnCh_subset sep rest part
              (hs ▸ List.mem_cons_of_mem h1 hp') c hc)

/-- Characters of the scanned lines come from the file content. -/
theorem mem_pyLinesL_subset (cs l : List Char) (hl : l ∈ pyLinesL cs) :
    ∀ c ∈ l, c ∈ cs := by
  unfold pyLinesL at hl
  by_cases h : (splitOnCh '\n' cs).getLast? = some []
  · rw [if_pos h] at hl
    exact mem_splitOnCh_subset '\n' cs l
      (List.dropLast_sublist _ |>.subset hl)
  · rw [if_neg h] at hl
    exact mem_splitOnCh_subset '\n' cs l hl

/-- All-digit line lists parse as rule files to the empty rule list. -/
theorem parseRuleLines_digits (lines : List (List Char))
    (h : ∀ l ∈ lines, containsL l ";;".data = false) :
    parseRuleLines lines = .ok [] := by
  induction lines with
  | nil => rfl
  | cons l ls ih =>
    simp only [parseRuleLines]
    rw [if_neg (by simp [h l (List.mem_cons_self l ls)])]
    exact ih fun x hx => h x (List.mem_cons_of_mem l hx)

/-- Stable descending insertion preserves membership. -/
theorem mem_insertDesc (r x : RotableLog) :
    ∀ l : List RotableLog, x ∈ insertDesc r l ↔ x = r ∨ x ∈ l
  | [] => by simp [insertDesc]
  | y :: ys => by
    unfold insertDesc
    by_cases h : y.timestamp ≤ r.timestamp
    · rw [if_pos h]
      simp [List.mem_cons]
    · rw [if_neg h]
      rw [List.mem_cons, mem_insertDesc r x ys, List.mem_cons]
      tauto

/-- The stable descending sort preserves membership. -/
theorem mem_sortDesc (x : RotableLog) :
    ∀ l : List RotableLog, x ∈ sortDesc l ↔ x ∈ l
  | [] => Iff.rfl
  | y :: ys => by
    unfold sortDesc
    rw [mem_insertDesc, mem_sortDesc x ys, List.mem_cons]

/-- Every resolved segment comes from a physical file modified strictly
after the bookmark timestamp, keeping that file's name and time. -/
theorem mem_get_rotated_logs (fs : FS) (logname : String) (s t : Nat)
    (r : RotableLog) (hr : r ∈ get_rotated_logs fs logname s t) :
    ∃ f ∈ fs, r.logfile = f.name ∧ r.timestamp = f.mtime ∧ t < f.mtime := by
  have hr' : r ∈ (match sortDesc
      (((fs.filter fun f => globMatch (logname ++ "*") f.name).map
        fun f => (⟨f.name, 0, f.mtime⟩ : RotableLog)).filter
        fun rec => t < rec.timestamp) with
      | [] => ([] : List RotableLog)
      | oldest_record :: rest => { oldest_record with seek := s } :: rest) :=
    hr
  clear hr
  rcases hsort : sortDesc
      (((fs.filter fun f => globMatch (logname ++ "*") f.name).map
        fun f => (⟨f.name, 0, f.mtime⟩ : RotableLog)).filter
        fun rec => t < rec.timestamp) with _ | ⟨h0, rest⟩
  · rw [hsort] at hr'
    cases hr'
  · rw [hsort] at hr'
    rename' hr' => hr
    have hsrc : ∀ rec : RotableLog, rec ∈ h0 :: rest →
        ∃ f ∈ fs, rec.logfile = f.name ∧ rec.timestamp = f.mtime ∧
          t < f.mtime := by
      intro rec hrec
      have : rec ∈ ((fs.filter fun f =>
          globMatch (logname ++ "*") f.name).map
          fun f => (⟨f.name, 0, f.mtime⟩ : RotableLog)).filter
          fun rec => t < rec.timestamp := by
        rw [← mem_sortDesc, hsort]
        exact hrec
      rcases List.mem_filter.1 this with ⟨hmap, ht⟩
      rcases List.mem_map.1 hmap with ⟨f, hfmem, rfl⟩
      exact ⟨f, (List.mem_filter.1 hfmem).1, rfl, rfl, by simpa using ht⟩
    rcases List.mem_cons.1 hr with rfl | hr'
    · rcases hsrc h0 (List.mem_cons_self h0 rest) with ⟨f, hf, h1, h2, h3⟩
      exact ⟨f, hf, h1, h2, h3⟩
    · exact hsrc r (List.mem_cons_of_mem h0 hr')

/-- Members of a fold that only appends per-element blocks. -/
theorem mem_foldl_append {α β : Type} (g : β → List α) :
    ∀ (l : List β) (init : List α) (x : α),
      x ∈ l.foldl (fun acc r => acc ++ g r) init →
      x ∈ init ∨ ∃ r ∈ l, x ∈ g r
  | [], _, x, hx => Or.inl hx
  | r0 :: rest, init, x, hx => by
    rcases mem_foldl_append g rest (init ++ g r0) x hx with h | ⟨r, hr, hxg⟩
    · rcases List.mem_append.1 h with h | h
      · exact Or.inl h
      · exact Or.inr ⟨r0, List.mem_cons_self _ _, h⟩
    · exact Or.inr ⟨r, List.mem_cons_of_mem _ hr, hxg⟩

/-- Offset sidecar files are never sweep candidates (they end in
`".offset"`). -/
theorem offsetFileName_not_candidate (logname : String) :
    isCandidate (offsetFileName logname) = false := by
  unfold isCandidate
  have hend : endsWithL (offsetFileName logname).data ".offset".data =
      true := by
    unfold endsWithL offsetFileName
    rw [String.data_append, String.data_append, List.reverse_append,
      List.reverse_append, ← List.append_assoc]
    rw [List.append_assoc (".offset".data.reverse)]
    exact isPreL_append_self _ _
  rw [hend]
  simp

/-- If every file modified after the bookmark timestamp has all-digit
content, the scan of the resolved chain reports nothing. -/
theorem scannedLines_filter_nil (rules : List (String × String))
    (regexes : List String) (logname : String) (fs' : FS) (seek ts : Nat)
    (hnd' : (fs'.map PFile.name).Nodup)
    (hA' : ∀ f ∈ fs', ts < f.mtime →
      ∀ c ∈ f.content.data, (48 ≤ c.toNat && c.toNat ≤ 57) = true) :
    (scannedLines fs' logname seek ts).filter
      (fun l => reportedLine (get_ignore_regex rules regexes logname) l) =
      [] := by
  rw [List.filter_eq_nil_iff]
  intro l hl
  unfold scannedLines at hl
  rcases mem_foldl_append _ _ _ _ hl with h | ⟨rec, hrec, hlg⟩
  · cases h
  · rcases List.mem_map.1 hlg with ⟨l', hl', rfl⟩
    rcases mem_get_rotated_logs fs' logname seek ts rec hrec with
      ⟨f, hfmem, hname, _, hmt⟩
    have hcontent : contentOf fs' rec.logfile = f.content := by
      unfold contentOf
      rw [hname, lookupFile_of_mem fs' f hnd' hfmem]
      rfl
    have hdig : ∀ c ∈ l', (48 ≤ c.toNat && c.toNat ≤ 57) = true := by
      intro c hc
      have h1 : c ∈ (contentOf fs' rec.logfile).data.drop seek :=
        mem_pyLinesL_subset _ _ hl' c hc
      have h2 : c ∈ (contentOf fs' rec.logfile).data :=
        List.drop_subset _ _ h1
      rw [hcontent] at h2
      exact hA' f hfmem hmt c h2
    intro hrep
    rw [show reportedLine (get_ignore_regex rules regexes logname) ⟨l'⟩ =
        false from by
      unfold reportedLine
      rw [errorsRe_digits_false l' hdig]
      rfl] at hrep
    cases hrep

/-- The state left by one per-candidate sweep body. -/
theorem sweepFile_snd (rules : List (String × String))
    (regexes : List String) (now : Nat) (fs : FS) (logname : String) :
    (sweepFile rules regexes now fs logname).2 =
      writeFile fs (offsetFileName logname)
        (natRepr (get_eof_offset fs logname)) now := rfl

/-- One per-candidate sweep body reports nothing when the bookmark sidecar
exists with timestamp at least `now₁` and every file modified after `now₁`
has all-digit content. -/
theorem sweepFile_errs_nil (rules : List (String × String))
    (regexes : List String) (now₁ now₂ : Nat) (fs : FS) (logname : String)
    (hnd : (fs.map PFile.name).Nodup) (off : PFile)
    (hoff : lookupFile fs (offsetFileName logname) = some off)
    (hofft : now₁ ≤ off.mtime)
    (hA : ∀ f ∈ fs, now₁ < f.mtime →
      ∀ c ∈ f.content.data, (48 ≤ c.toNat && c.toNat ≤ 57) = true) :
    (sweepFile rules regexes now₂ fs logname).1 = [] := by
  have hts : bookmarkTimestamp fs logname = off.mtime := by
    unfold bookmarkTimestamp
    rw [hoff]
  show ((scannedLines (writeFile fs (offsetFileName logname)
      (natRepr (get_eof_offset fs logname)) now₂) logname
      (bookmarkSeek fs logname) (bookmarkTimestamp fs logname)).filter
      (fun l => reportedLine (get_ignore_regex rules regexes logname)
        l)).map (fun l => (logname, l)) = []
  rw [hts]
  have hnd' := nodup_writeFile fs (offsetFileName logname)
    (natRepr (get_eof_offset fs logname)) now₂ hnd
  have hA' : ∀ f ∈ writeFile fs (offsetFileName logname)
      (natRepr (get_eof_offset fs logname)) now₂,
      off.mtime < f.mtime →
      ∀ c ∈ f.content.data, (48 ≤ c.toNat && c.toNat ≤ 57) = true := by
    intro f hf hmt
    rcases mem_writeFile _ _ _ _ _ hf with hf' | rfl
    · exact hA f hf' (lt_of_le_of_lt hofft hmt)
    · intro c hc
      exact natCharsAux_digits _ _ c hc
  rw [scannedLines_filter_nil rules regexes logname _ _ _ hnd' hA']
  rfl

/-- Files present after the sweep fold: the ones already present, or
offset sidecars written at sweep time with numeral content. -/
theorem mem_foldl_sweepStep (rules : List (String × String))
    (regexes : List String) (now : Nat) :
    ∀ (cands : List String) (acc : List (String × String) × FS) (f : PFile),
      f ∈ (cands.foldl (sweepStep rules regexes now) acc).2 →
      f ∈ acc.2 ∨ ∃ (c : String) (k : Nat),
        f = ⟨offsetFileName c, natRepr k, now⟩
  | [], _, f, hf => Or.inl hf
  | c0 :: rest, acc, f, hf => by
    rcases mem_foldl_sweepStep rules regexes now rest
        (sweepStep rules regexes now acc c0) f hf with h | h
    · have h2 : (sweepStep rules regexes now acc c0).2 =
          writeFile acc.2 (offsetFileName c0)
            (natRepr (get_eof_offset acc.2 c0)) now := rfl
      rw [h2] at h
      rcases mem_writeFile _ _ _ _ _ h with h' | rfl
      · exact Or.inl h'
      · exact Or.inr ⟨c0, get_eof_offset acc.2 c0, rfl⟩
    · exact Or.inr h

/-- Lookups after the sweep fold: unchanged, or a freshly written numeral
sidecar stamped at sweep time. -/
theorem lookup_foldl_sweepStep (rules : List (String × String))
    (regexes : List String) (now : Nat) :
    ∀ (cands : List String) (acc : List (String × String) × FS)
      (n : String),
      lookupFile ((cands.foldl (sweepStep rules regexes now) acc).2) n =
        lookupFile acc.2 n ∨
      ∃ k, lookupFile ((cands.foldl (sweepStep rules regexes now) acc).2)
        n = some ⟨n, natRepr k, now⟩
  | [], _, _ => Or.inl rfl
  | c0 :: rest, acc, n => by
    have h2 : (sweepStep rules regexes now acc c0).2 =
        writeFile acc.2 (offsetFileName c0)
          (natRepr (get_eof_offset acc.2 c0)) now := rfl
    rcases lookup_foldl_sweepStep rules regexes now rest
        (sweepStep rules regexes now acc c0) n with h | h
    · by_cases hn : n = offsetFileName c0
    -- fold over (c0 :: rest) is definitionally the fold over rest
      · subst hn
        rw [h2, lookupFile_writeFile_self] at h
        exact Or.inr ⟨get_eof_offset acc.2 c0, h⟩
      · rw [h2, lookupFile_writeFile_other _ _ _ _ _ hn] at h
        exact Or.inl h
    · exact Or.inr h

/-- The sweep fold preserves distinctness of names. -/
theorem nodup_foldl_sweepStep (rules : List (String × String))
    (regexes : List String) (now : Nat) :
    ∀ (cands : List String) (acc : List (String × String) × FS),
      (acc.2.map PFile.name).Nodup →
      (((cands.foldl (sweepStep rules regexes now) acc).2).map
        PFile.name).Nodup
  | [], _, h => h
  | c0 :: rest, acc, h =>
    nodup_foldl_sweepStep rules regexes now rest
      (sweepStep rules regexes now acc c0)
      (nodup_writeFile acc.2 _ _ _ h)

/-- After the sweep fold, every processed candidate has an offset sidecar
stamped at sweep time. -/
theorem offsets_after_sweep (rules : List (String × String))
    (regexes : List String) (now : Nat) :
    ∀ (cands : List String) (acc : List (String × String) × FS),
      ∀ L ∈ cands,
        ∃ off, lookupFile
            ((cands.foldl (sweepStep rules regexes now) acc).2)
            (offsetFileName L) = some off ∧ off.mtime = now
  | [], _, L, hL => absurd hL (List.not_mem_nil L)
  | c0 :: rest, acc, L, hL => by
    rw [List.foldl_cons]
    rcases List.mem_cons.1 hL with rfl | hL'
    · rcases lookup_foldl_sweepStep rules regexes now rest
          (sweepStep rules regexes now acc L) (offsetFileName L) with
        h | ⟨k, h⟩
      · refine ⟨⟨offsetFileName L, natRepr (get_eof_offset acc.2 L), now⟩,
          ?_, rfl⟩
        rw [h]
        exact lookupFile_writeFile_self acc.2 _ _ _
      · exact ⟨⟨offsetFileName L, natRepr k, now⟩, h, rfl⟩
    · exact offsets_after_sweep rules regexes now rest _ L hL'

/-- No file in the state left by a sweep is newer than the sweep time. -/
theorem mtimes_after_sweep (rules : List (String × String))
    (regexes : List String) (now : Nat) (cands : List String)
    (acc : List (String × String) × FS)
    (hacc : ∀ f ∈ acc.2, f.mtime ≤ now) :
    ∀ f ∈ (cands.foldl (sweepStep rules regexes now) acc).2,
      f.mtime ≤ now := by
  intro f hf
  rcases mem_foldl_sweepStep rules regexes now cands acc f hf with
    h | ⟨c, k, rfl⟩
  · exact hacc f h
  · exact Nat.le_refl now

/-- The second sweep's fold reports nothing: every candidate's bookmark
sidecar exists with timestamp at least `now₁`, and every file modified
after `now₁` holds only a numeral. -/
theorem sweep2_foldl_errs (rules : List (String × String))
    (regexes : List String) (now₁ now₂ : Nat) (h12 : now₁ ≤ now₂) :
    ∀ (cands : List String) (fsAcc : FS) (e : List (String × String)),
      ((fsAcc.map PFile.name).Nodup) →
      (∀ f ∈ fsAcc, now₁ < f.mtime →
        ∀ c ∈ f.content.data, (48 ≤ c.toNat && c.toNat ≤ 57) = true) →
      (∀ L ∈ cands, ∃ off,
        lookupFile fsAcc (offsetFileName L) = some off ∧
          now₁ ≤ off.mtime) →
      (cands.foldl (sweepStep rules regexes now₂) (e, fsAcc)).1 = e
  | [], _, _, _, _, _ => rfl
  | c0 :: rest, fsAcc, e, hnd, hA, hB => by
    rcases hB c0 (List.mem_cons_self c0 rest) with ⟨off, hoff, hofft⟩
    have herr : (sweepFile rules regexes now₂ fsAcc c0).1 = [] :=
      sweepFile_errs_nil rules regexes now₁ now₂ fsAcc c0 hnd off hoff
        hofft hA
    have hstep : sweepStep rules regexes now₂ (e, fsAcc) c0 =
        (e, writeFile fsAcc (offsetFileName c0)
          (natRepr (get_eof_offset fsAcc c0)) now₂) := by
      unfold sweepStep
      dsimp only
      rw [herr, sweepFile_snd]
      simp
    rw [List.foldl_cons, hstep]
    have hA' : ∀ f ∈ writeFile fsAcc (offsetFileName c0)
        (natRepr (get_eof_offset fsAcc c0)) now₂, now₁ < f.mtime →
        ∀ c ∈ f.content.data, (48 ≤ c.toNat && c.toNat ≤ 57) = true := by
      intro f hf hmt
      rcases mem_writeFile _ _ _ _ _ hf with hf' | rfl
      · exact hA f hf' hmt
      · intro c hc
        exact natCharsAux_digits _ _ c hc
    have hB' : ∀ L ∈ rest, ∃ off,
        lookupFile (writeFile fsAcc (offsetFileName c0)
          (natRepr (get_eof_offset fsAcc c0)) now₂)
          (offsetFileName L) = some off ∧ now₁ ≤ off.mtime := by
      intro L hL
      by_cases hn : offsetFileName L = offsetFileName c0
      · rw [hn, lookupFile_writeFile_self]
        exact ⟨_, rfl, h12⟩
      · rw [lookupFile_writeFile_other _ _ _ _ _ hn]
        exact hB L (List.mem_cons_of_mem c0 hL)
    exact sweep2_foldl_errs rules regexes now₁ now₂ h12 rest _ e
      (nodup_writeFile _ _ _ _ hnd) hA' hB'

/-- C4: a second sweep immediately after a first one, with no file
modified in between (every modification time at most the first sweep's
time `now₁`, and time moving forward to `now₂`), reports no offending
lines: the first sweep persisted a bookmark at each candidate's
end-of-file before scanning, so the second sweep's rotation resolver
excludes every log file (none is newer than its bookmark sidecar), and the
only files newer than `now₁` are the sweep's own numeral sidecars, whose
content never matches the error signature. -/
theorem sweep_twice_second_empty (fs : FS) (now₁ now₂ : Nat)
    (errs₁ : List (String × String)) (fs₁ : FS)
    (hnd : (fs.map PFile.name).Nodup)
    (hm : ∀ f ∈ fs, f.mtime ≤ now₁)
    (h12 : now₁ ≤ now₂)
    (h₁ : search_cluster_artifacts fs now₁ = .ok (errs₁, fs₁)) :
    (search_cluster_artifacts fs₁ now₂).map Prod.fst = .ok [] := by
  unfold search_cluster_artifacts sweepWith at h₁
  rcases hr₁ : get_ignore_rules fs with e | rules₁
  · rw [hr₁] at h₁
    cases h₁
  rw [hr₁] at h₁
  injection h₁ with h₁
  have hfs₁ : fs₁ = (((fs.map PFile.name).filter isCandidate).foldl
      (sweepStep rules₁ ERRORS_IGNORED now₁) ([], fs)).2 := by
    rw [h₁]
  have hnd₁ : (fs₁.map PFile.name).Nodup := by
    rw [hfs₁]
    exact nodup_foldl_sweepStep rules₁ ERRORS_IGNORED now₁ _ ([], fs) hnd
  have hm₁ : ∀ f ∈ fs₁, f.mtime ≤ now₁ := by
    rw [hfs₁]
    exact mtimes_after_sweep rules₁ ERRORS_IGNORED now₁ _ ([], fs) hm
  have hoffs : ∀ L ∈ (fs.map PFile.name).filter isCandidate,
      ∃ off, lookupFile fs₁ (offsetFileName L) = some off ∧
        off.mtime = now₁ := by
    rw [hfs₁]
    exact offsets_after_sweep rules₁ ERRORS_IGNORED now₁ _ ([], fs)
  have hA : ∀ f ∈ fs₁, now₁ < f.mtime →
      ∀ c ∈ f.content.data, (48 ≤ c.toNat && c.toNat ≤ 57) = true := by
    intro f hf hmt
    exact absurd hmt (by have := hm₁ f hf; omega)
  have hmemfs₁ : ∀ f ∈ fs₁, f ∈ fs ∨ ∃ (c : String) (k : Nat),
      f = ⟨offsetFileName c, natRepr k, now₁⟩ := by
    intro f hf
    rw [hfs₁] at hf
    exact mem_foldl_sweepStep rules₁ ERRORS_IGNORED now₁ _ ([], fs) f hf
  have hparses : ∀ f ∈ fs₁.filter
      (fun f => isPreL ".errors_rules_".data f.name.data),
      ∃ rf, parseRuleLines (pyLinesL f.content.data) = .ok rf := by
    intro f hf
    rcases hmemfs₁ f (List.mem_filter.1 hf).1 with hmem | ⟨c, k, rfl⟩
    · refine girf_ok_mem _ rules₁ hr₁ f (List.mem_filter.2 ?_)
      exact ⟨hmem, (List.mem_filter.1 hf).2⟩
    · refine ⟨[], parseRuleLines_digits _ ?_⟩
      intro l hl
      have hdig : ∀ c' ∈ l, (48 ≤ c'.toNat && c'.toNat ≤ 57) = true := by
        intro c' hc'
        exact natCharsAux_digits _ _ c'
          (mem_pyLinesL_subset _ _ hl c' hc')
      rw [show ";;".data = ';' :: [';'] from rfl]
      exact containsL_digits_false ';' [';'] l (by decide) hdig
  have hrules₂ : ∃ rules₂, get_ignore_rules fs₁ = .ok rules₂ := by
    rcases girf_ok_of_parses _ hparses with ⟨rs, hok, _⟩
    exact ⟨rs, hok⟩
  rcases hrules₂ with ⟨rules₂, hrules₂⟩
  have hB : ∀ L ∈ (fs₁.map PFile.name).filter isCandidate,
      ∃ off, lookupFile fs₁ (offsetFileName L) = some off ∧
        now₁ ≤ off.mtime := by
    intro L hL
    rcases List.mem_filter.1 hL with ⟨hLmem, hLcand⟩
    rcases List.mem_map.1 hLmem with ⟨f, hfmem, rfl⟩
    rcases hmemfs₁ f hfmem with hmem | ⟨c, k, rfl⟩
    · have : f.name ∈ (fs.map PFile.name).filter isCandidate :=
        List.mem_filter.2 ⟨List.mem_map_of_mem PFile.name hmem, hLcand⟩
      rcases hoffs f.name this with ⟨off, hoff, hofft⟩
      exact ⟨off, hoff, Nat.le_of_eq hofft.symm⟩
    · exfalso
      rw [show (⟨offsetFileName c, natRepr k, now₁⟩ : PFile).name =
        offsetFileName c from rfl, offsetFileName_not_candidate c]
        at hLcand
      cases hLcand
  unfold search_cluster_artifacts sweepWith
  rw [hrules₂]
  show Except.ok ((((fs₁.map PFile.name).filter isCandidate).foldl
      (sweepStep rules₂ ERRORS_IGNORED now₂) ([], fs₁)).1) =
    Except.ok ([] : List (String × String))
  rw [sweep2_foldl_errs rules₂ ERRORS_IGNORED now₁ now₂ h12 _ fs₁ []
    hnd₁ hA hB]

/-- Witness for C4: a concrete directory with one log file holding an
error line; the first sweep reports it, the second sweep reports
nothing. -/
theorem sweep_twice_second_empty_witness :
    (search_cluster_artifacts
      [⟨"node.stdout", "boot failed\n", 5⟩]
      10 |>.map Prod.fst) = .ok [("node.stdout", "boot failed")] ∧
    ((do
      let r₁ ← search_cluster_artifacts
        [⟨"node.stdout", "boot failed\n", 5⟩] 10
      search_cluster_artifacts r₁.2 11 : Except String _).map Prod.fst) =
      .ok [] := by
  constructor
  · rfl
  · have h := sweep_twice_second_empty
      [⟨"node.stdout", "boot failed\n", 5⟩] 10 11
      [("node.stdout", "boot failed")]
      [⟨"node.stdout", "boot failed\n", 5⟩,
        ⟨".node.stdout.offset", "12", 10⟩]
      (by decide) (by decide) (by decide) (by rfl)
    rw [show (do
        let r₁ ← search_cluster_artifacts
          [⟨"node.stdout", "boot failed\n", 5⟩] 10
        search_cluster_artifacts r₁.2 11 : Except String _) =
      search_cluster_artifacts
        [⟨"node.stdout", "boot failed\n", 5⟩,
          ⟨".node.stdout.offset", "12", 10⟩] 11 from rfl]
    exact h
